import Mathlib

/-!
Verification development for the email_parser repository.

The repository's two parser variants (parser.py, modelled in namespace
ParserPy, and parser_1.py, modelled in namespace Parser1) are shallowly
embedded as executable Lean functions over character lists.  External
library boundaries are modelled as follows, matching the spec's external
interface section:

* datetime instants are modelled by the structure DT: a civil day number
  (days since 1970-01-01, computed by the standard civil-calendar
  conversion) plus minutes since midnight;
* dateparser.parse is modelled per call site on exactly the string shapes
  the source can feed it (explicit month/day/year strings, formatted
  Y-m-d date plus clock strings, bare clock strings with future
  preference, and isoformat round trips, which dateparser resolves to the
  same instant they were printed from);
* the spacy classification model is an external capability; it enters the
  embedding as a context function from text to label/confidence pairs.

Python regular-expression behaviour (leftmost match, alternation priority,
greedy and lazy quantifiers, captures, case-insensitive flags) is
implemented by a small backtracking engine over an explicit pattern AST;
each regex literal of the source is transcribed into that AST next to the
function using it.
-/

/-- Text is modelled as a list of characters. -/
abbrev Txt := List Char

/-- Convert a string literal to the character-list representation. -/
def tx (s : String) : Txt := s.data

/-- ASCII lower-casing of one character, as used for Python str.lower()
and case-insensitive regex matching on the ASCII texts of this code. -/
def lowerCh (c : Char) : Char :=
  if 'A' ≤ c ∧ c ≤ 'Z' then Char.ofNat (c.toNat + 32) else c

/-- Lower-case a whole text (Python str.lower on ASCII input). -/
def lowerTx (t : Txt) : Txt := t.map lowerCh

/-- Python str whitespace characters (ASCII range). -/
def isWS (c : Char) : Bool :=
  c = ' ' ∨ c = '\t' ∨ c = '\n' ∨ c = '\r' ∨ c = '\x0b' ∨ c = '\x0c'

/-- Python str.strip(): drop whitespace from both ends. -/
def stripTx (t : Txt) : Txt :=
  ((t.dropWhile isWS).reverse.dropWhile isWS).reverse

/-- Python str.lstrip("0"): drop leading zero characters. -/
def lstripZeros (t : Txt) : Txt := t.dropWhile (· = '0')

/-- Split a text on newline characters (Python str.split("\n")):
always returns at least one (possibly empty) line. -/
def splitLines : Txt → List Txt
  | [] => [[]]
  | c :: r =>
    let rest := splitLines r
    if c = '\n' then [] :: rest
    else match rest with
      | l :: ls => (c :: l) :: ls
      | [] => [[c]]

/-- Join lines with newline characters (Python "\n".join). -/
def joinLines : List Txt → Txt
  | [] => []
  | [l] => l
  | l :: ls => l ++ '\n' :: joinLines ls

/-- Case-sensitive text prefix test. -/
def startsWith : Txt → Txt → Bool
  | _, [] => true
  | [], _ :: _ => false
  | c :: t, p :: ps => c = p && startsWith t ps

/-- Case-insensitive prefix test (both sides lowered). -/
def startsWithCI (t p : Txt) : Bool := startsWith (lowerTx t) (lowerTx p)

/-- Case-sensitive substring test. -/
def containsSub : Txt → Txt → Bool
  | t, p => if startsWith t p then true else
    match t with
    | [] => false
    | _ :: r => containsSub r p

/-- Case-insensitive substring test (models re.search of a literal
pattern under re.IGNORECASE, and Python `x in y` after lowering). -/
def containsSubCI (t p : Txt) : Bool := containsSub (lowerTx t) (lowerTx p)

/-- All start positions at which the literal `p` occurs in `t`,
in increasing order (overlapping occurrences included). -/
def subPositionsFrom : Txt → Txt → Nat → List Nat
  | t, p, i =>
    let tail := match t with
      | [] => []
      | _ :: r => subPositionsFrom r p (i + 1)
    if startsWith t p then i :: tail else tail

/-- Occurrence positions of a literal substring. -/
def subPositions (t p : Txt) : List Nat := subPositionsFrom t p 0

/-- Existence of a substring occurrence whose preceding four characters
are not "not " — the lookbehind-guarded pattern (?<!not )flexible of
parser.py, compiled with re.IGNORECASE (so the guard is also
case-insensitive). -/
def guardedOccur (t : Txt) (p : Txt) (guard : Txt) : Bool :=
  let lt := lowerTx t
  (subPositions lt (lowerTx p)).any fun i =>
    ¬ (guard.length ≤ i ∧ startsWith (lt.drop (i - guard.length)) guard)

section Calendar

/-- Days since 1970-01-01 of a civil date, by the standard
days-from-civil algorithm (floor divisions throughout). -/
def daysFromCivil (y m d : Int) : Int :=
  let y' := if m ≤ 2 then y - 1 else y
  let era := y'.fdiv 400
  let yoe := y' - era * 400
  let doy := (153 * ((m + 9) % 12) + 2).fdiv 5 + d - 1
  let doe := yoe * 365 + yoe.fdiv 4 - yoe.fdiv 100 + doy
  era * 146097 + doe - 719468

/-- A civil calendar date. -/
structure Civil where
  year : Int
  month : Int
  day : Int
deriving DecidableEq, Repr

/-- Civil date of a days-since-1970-01-01 day number (inverse of
daysFromCivil, the standard civil-from-days algorithm). -/
def civilFromDays (z0 : Int) : Civil :=
  let z := z0 + 719468
  let era := z.fdiv 146097
  let doe := z - era * 146097
  let yoe := (doe - doe.fdiv 1460 + doe.fdiv 36524 - doe.fdiv 146096).fdiv 365
  let y := yoe + era * 400
  let doy := doe - (365 * yoe + yoe.fdiv 4 - yoe.fdiv 100)
  let mp := (5 * doy + 2).fdiv 153
  let d := doy - (153 * mp + 2).fdiv 5 + 1
  let m := if mp < 10 then mp + 3 else mp - 9
  ⟨if m ≤ 2 then y + 1 else y, m, d⟩

/-- Timezone-naive instant: day number (days since 1970-01-01) and
minutes since midnight.  Models Python datetime at minute resolution,
which is the resolution of every instant this code constructs. -/
structure DT where
  day : Int
  min : Int
deriving DecidableEq, Repr

/-- Python date.weekday(): Monday = 0 ... Sunday = 6.
1970-01-01 (day 0) was a Thursday (= 3). -/
def DT.weekday (d : DT) : Int := (d.day + 3).emod 7

/-- Python datetime.hour. -/
def DT.hour (d : DT) : Int := d.min.fdiv 60

/-- Python datetime.minute. -/
def DT.minute (d : DT) : Int := d.min.emod 60

/-- Python datetime comparison (instants at minute resolution). -/
def DT.lt (a b : DT) : Bool := a.day < b.day ∨ (a.day = b.day ∧ a.min < b.min)

/-- Month names, 1-indexed, as produced by strftime %B. -/
def monthNames : List String :=
  ["January", "February", "March", "April", "May", "June", "July",
   "August", "September", "October", "November", "December"]

/-- strftime %B for the month of an instant. -/
def monthName (m : Int) : String :=
  if 1 ≤ m ∧ m ≤ 12 then monthNames.getD (m - 1).toNat "" else ""

/-- Weekday names as produced by strftime %A (Monday = 0). -/
def weekdayNames : List String :=
  ["Monday", "Tuesday", "Wednesday", "Thursday", "Friday", "Saturday", "Sunday"]

/-- strftime %A for an instant. -/
def DT.weekdayName (d : DT) : String := weekdayNames.getD d.weekday.toNat ""

/-- 12-hour clock hour of an instant (strftime %I as a number: 1..12). -/
def DT.hour12 (d : DT) : Int :=
  let h := d.hour % 12
  if h = 0 then 12 else h

/-- strftime %p for an instant. -/
def DT.ampm (d : DT) : String := if d.hour < 12 then "AM" else "PM"

/-- Zero-padded two-digit rendering of a small natural number. -/
def pad2 (n : Int) : String :=
  if n < 10 then "0" ++ toString n else toString n

/-- Python datetime.isoformat() at minute resolution:
YYYY-MM-DDTHH:MM:SS. -/
def DT.iso (d : DT) : String :=
  let c := civilFromDays d.day
  toString c.year ++ "-" ++ pad2 c.month ++ "-" ++ pad2 c.day ++ "T" ++
    pad2 d.hour ++ ":" ++ pad2 d.minute ++ ":00"

/-- strftime "%I:%M %p" followed by lstrip("0"), as used by
parser_1._find_time_confirmation (e.g. "2:00 PM"). -/
def DT.clockStr (d : DT) : Txt :=
  lstripZeros (tx (pad2 d.hour12 ++ ":" ++ pad2 d.minute ++ " " ++ d.ampm))

end Calendar

section Regex

/-- Pattern AST for the regular expressions appearing in the source.
Quantifiers are greedy except lstar, which is the lazy star over a
character class ([^.]*? and similar). -/
inductive RE where
  | eps : RE
  | cls (p : Char → Bool) : RE
  | seq (a b : RE) : RE
  | alt (a b : RE) : RE
  | opt (a : RE) : RE
  | star (a : RE) : RE
  | lstar (p : Char → Bool) : RE
  | grp (n : Nat) (a : RE) : RE

namespace RE

/-- Sequence of several patterns. -/
def seqs : List RE → RE
  | [] => .eps
  | [r] => r
  | r :: rs => .seq r (seqs rs)

/-- Ordered alternation of several patterns (first alternative has
priority, as in Python). -/
def alts : List RE → RE
  | [] => .eps
  | [r] => r
  | r :: rs => .alt r (alts rs)

/-- Literal string, case-sensitive. -/
def lit (s : String) : RE := seqs ((tx s).map fun c => .cls (· = c))

/-- Literal string under re.IGNORECASE. -/
def litCI (s : String) : RE :=
  seqs ((tx s).map fun c => .cls (fun x => lowerCh x = lowerCh c))

/-- One-or-more repetition (greedy +). -/
def plus (a : RE) : RE := .seq a (.star a)

/-- Structural size, used only to compute a sufficient recursion fuel. -/
def size : RE → Nat
  | .eps => 1
  | .cls _ => 1
  | .seq a b => size a + size b + 1
  | .alt a b => size a + size b + 1
  | .opt a => size a + 1
  | .star a => size a + 2
  | .lstar _ => 2
  | .grp _ a => size a + 1

end RE

/-- Captured group spans: (group number, start, stop). -/
abbrev Caps := List (Nat × Nat × Nat)

/-- Backtracking matcher.  Returns, in Python's backtracking priority
order, every way the pattern can match a prefix of `rest` (which starts
at absolute position `pos`): (end position, remaining text, captures).
`fuel` bounds recursion depth; callers supply a fuel large enough that
it is never exhausted on their inputs (star bodies here always consume
at least one character per iteration, so depth is bounded by pattern
size times text length). -/
def reMatch : Nat → RE → Txt → Nat → List (Nat × Txt × Caps)
  | 0, _, _, _ => []
  | _ + 1, .eps, rest, pos => [(pos, rest, [])]
  | _ + 1, .cls _, [], _ => []
  | _ + 1, .cls p, c :: r, pos => if p c then [(pos + 1, r, [])] else []
  | f + 1, .seq a b, rest, pos =>
    (reMatch f a rest pos).flatMap fun x =>
      (reMatch f b x.2.1 x.1).map fun y => (y.1, y.2.1, x.2.2 ++ y.2.2)
  | f + 1, .alt a b, rest, pos => reMatch f a rest pos ++ reMatch f b rest pos
  | f + 1, .opt a, rest, pos => reMatch f a rest pos ++ [(pos, rest, [])]
  | f + 1, .star a, rest, pos =>
    ((reMatch f a rest pos).flatMap fun x =>
      if x.1 = pos then []
      else (reMatch f (.star a) x.2.1 x.1).map fun y =>
        (y.1, y.2.1, x.2.2 ++ y.2.2)) ++ [(pos, rest, [])]
  | f + 1, .lstar p, rest, pos =>
    (pos, rest, []) :: (match rest with
      | [] => []
      | c :: r => if p c then reMatch f (.lstar p) r (pos + 1) else [])
  | f + 1, .grp n a, rest, pos =>
    (reMatch f a rest pos).map fun x => (x.1, x.2.1, (n, pos, x.1) :: x.2.2)

/-- A regex match: span and captures. -/
structure Mtch where
  start : Nat
  stop : Nat
  caps : Caps
deriving DecidableEq, Repr

/-- Fuel sufficient for the patterns of this development. -/
def reFuel (r : RE) (t : Txt) : Nat := (r.size + 2) * (t.length + 2)

/-- First match of `r` at or after position `i` of the suffix `rest`
(Python's scan loop underlying re.search / re.finditer). -/
def reScan (r : RE) : Nat → Txt → Nat → Option Mtch
  | 0, _, _ => none
  | fuel + 1, rest, i =>
    match reMatch (reFuel r rest) r rest i with
    | x :: _ => some ⟨i, x.1, x.2.2⟩
    | [] =>
      match rest with
      | [] => none
      | _ :: r' => reScan r fuel r' (i + 1)

/-- Python re.search: leftmost match, backtracking-priority captures. -/
def reSearch (r : RE) (t : Txt) : Option Mtch :=
  reScan r (t.length + 1) t 0

/-- Python re.finditer: non-overlapping leftmost matches. -/
def reFindIter (r : RE) (t : Txt) : List Mtch :=
  go (t.length + 1) t 0
where
  go : Nat → Txt → Nat → List Mtch
    | 0, _, _ => []
    | fuel + 1, rest, i =>
      match reScan r (rest.length + 1) rest i with
      | none => []
      | some m =>
        let adv := if m.stop ≤ m.start then m.start + 1 else m.stop
        m :: go fuel (rest.drop (adv - i)) adv

/-- Text of a capture group of a match against text `t`
(none when the group did not participate). -/
def Mtch.group (m : Mtch) (t : Txt) (n : Nat) : Option Txt :=
  match m.caps.find? (fun c => c.1 = n) with
  | some (_, st, en) => some ((t.drop st).take (en - st))
  | none => none

/-- Full matched text of a match. -/
def Mtch.matched (m : Mtch) (t : Txt) : Txt :=
  (t.drop m.start).take (m.stop - m.start)

/-- Boolean re.search. -/
def reTest (r : RE) (t : Txt) : Bool := (reSearch r t).isSome

end Regex

section CharClasses

/-- Python \w on the ASCII texts of this code. -/
def wordC (c : Char) : Bool := c.isAlphanum || c = '_'

/-- Character class [\w\.-] of the header-boundary and findall patterns. -/
def addrC (c : Char) : Bool := wordC c || c = '.' || c = '-'

/-- Python \d. -/
def digitC (c : Char) : Bool := c.isDigit

/-- Character class [a-zA-Z0-9._%+-] (email local part). -/
def emailC1 (c : Char) : Bool :=
  c.isAlphanum || c = '.' || c = '_' || c = '%' || c = '+' || c = '-'

/-- Character class [a-zA-Z0-9.-] (email domain). -/
def emailC2 (c : Char) : Bool := c.isAlphanum || c = '.' || c = '-'

/-- Character class [A-Za-z]. -/
def alphaC (c : Char) : Bool := c.isAlpha

/-- Shorthand: \s+ -/
def wsP : RE := RE.plus (.cls isWS)

/-- Shorthand: \s* -/
def wsS : RE := .star (.cls isWS)

/-- Clock-time pattern \d{1,2}(?::\d{2})?\s*(?:AM|PM|am|pm), matched under
re.IGNORECASE wherever it occurs in the source. -/
def timeRE : RE :=
  RE.seqs [.cls digitC, .opt (.cls digitC),
    .opt (RE.seqs [RE.lit ":", .cls digitC, .cls digitC]), wsS,
    RE.alts [RE.litCI "AM", RE.litCI "PM", RE.litCI "am", RE.litCI "pm"]]

/-- Email-address pattern [a-zA-Z0-9._%+-]+@[a-zA-Z0-9.-]+\.[A-Za-z]{2,}
used by the parser_1.py delegate patterns. -/
def emailRE : RE :=
  RE.seqs [RE.plus (.cls emailC1), .cls (· = '@'), RE.plus (.cls emailC2),
    .cls (· = '.'), .cls alphaC, RE.plus (.cls alphaC)]

end CharClasses

section DateResolver

/-- Numeric value of a digit string. -/
def digitsToInt (ds : Txt) : Int :=
  ds.foldl (fun a c => a * 10 + ((c.toNat : Int) - 48)) 0

/-- Parse a clock string of the shape produced by timeRE
("2pm", "2:30 PM", ...) to minutes since midnight, with the standard
12-hour convention dateparser applies (12am = 00:00, 12pm = 12:00). -/
def parseClock (t : Txt) : Option Int := do
  let ds := t.takeWhile (·.isDigit)
  if ds.isEmpty then none else
  let h := digitsToInt ds
  let r1 := t.drop ds.length
  let (mm, r2) : Int × Txt :=
    match r1 with
    | ':' :: r =>
      let ms := r.takeWhile (·.isDigit)
      (digitsToInt ms, r.drop ms.length)
    | _ => (0, r1)
  let r3 := r2.dropWhile isWS
  let pm ← match lowerTx r3 with
    | 'p' :: 'm' :: _ => some true
    | 'a' :: 'm' :: _ => some false
    | _ => none
  let hh := if pm then (if h = 12 then 12 else h + 12) else (if h = 12 then 0 else h)
  return hh * 60 + mm

/-- Model of dateparser.parse on "{Y-m-d strftime of a day} {clock}":
dateparser resolves this fully explicit expression to that civil day at
that clock time (the future-preference setting does not alter a fully
specified date). -/
def parseDayClock (day : Int) (timeStr : Txt) : Option DT :=
  (parseClock timeStr).map fun m => ⟨day, m⟩

/-- Model of dateparser.parse on a bare clock string with
PREFER_DATES_FROM = future and RELATIVE_BASE = now: the next instant
with that clock time strictly in the future of now. -/
def parseClockFuture (now : DT) (timeStr : Txt) : Option DT :=
  (parseClock timeStr).map fun m =>
    if now.min < m then ⟨now.day, m⟩ else ⟨now.day + 1, m⟩

/-- Model of dateparser.parse on "{month-name day(ordinal)} {clock} {year}"
(the string parser.py builds for explicit dates): the named month and day
of the given year, at that clock time. -/
def parseExplicitDate (dateStr timeStr : Txt) (year : Int) : Option DT :=
  match monthNames.findIdx? (fun n => startsWithCI dateStr (tx n)) with
  | none => none
  | some idx =>
    let name := monthNames.getD idx ""
    let r := (dateStr.drop (tx name).length).dropWhile isWS
    let ds := r.takeWhile (·.isDigit)
    if ds.isEmpty then none
    else (parseClock timeStr).map fun m =>
      ⟨daysFromCivil year ((idx : Int) + 1) (digitsToInt ds), m⟩

end DateResolver

namespace ParserPy

/-- Header triple extracted by parser.py EmailParser._extract_headers. -/
structure Headers where
  from_h : Option String
  to_h : Option String
  subject : Option String
deriving DecidableEq, Repr

/-- parser.py _extract_headers: scan the first 10 lines; a stripped line
whose lowering starts with from:/to:/subject: sets (and overwrites) the
corresponding field from the slice after the prefix, stripped; stop as
soon as all three values are truthy in Python's sense — the source's
all(headers.values()) treats both None and the empty string as missing,
so a header set to "" does not end the scan. -/
def extract_headers (email_text : Txt) : Headers :=
  go ((splitLines email_text).take 10) ⟨none, none, none⟩
where
  go : List Txt → Headers → Headers
    | [], h => h
    | l :: ls, h =>
      let s := stripTx l
      let h' :=
        if startsWithCI s (tx "from:") then
          { h with from_h := some (String.mk (stripTx (s.drop 5))) }
        else if startsWithCI s (tx "to:") then
          { h with to_h := some (String.mk (stripTx (s.drop 3))) }
        else if startsWithCI s (tx "subject:") then
          { h with subject := some (String.mk (stripTx (s.drop 8))) }
        else h
      if (h'.from_h.any fun v => !v.isEmpty) ∧
          (h'.to_h.any fun v => !v.isEmpty) ∧
          (h'.subject.any fun v => !v.isEmpty) then h'
      else go ls h'

/-- parser.py _validate_email_chunk: the first 10 lines must contain
(via the source's elif chain, folded here) a from:, a to: and a
subject:-prefixed line, case-insensitively. -/
def validate_email_chunk (email_lines : List Txt) : Bool :=
  let found := (email_lines.take 10).foldl
    (fun (acc : Bool × Bool × Bool) l =>
      if startsWithCI l (tx "from:") then (true, acc.2.1, acc.2.2)
      else if startsWithCI l (tx "to:") then (acc.1, true, acc.2.2)
      else if startsWithCI l (tx "subject:") then (acc.1, acc.2.1, true)
      else acc)
    (false, false, false)
  found.1 && found.2.1 && found.2.2

/-- Boundary test of parser.py _split_emails: the stripped line matches
^From:\s*[\w\.-]+@[\w\.-]+\s*$ under re.IGNORECASE (the character
classes are disjoint from whitespace and from @, so the greedy scan is
deterministic). -/
def boundary_match (l : Txt) : Bool :=
  if startsWithCI l (tx "from:") then
    let r1 := (l.drop 5).dropWhile isWS
    let a := r1.takeWhile addrC
    let r2 := r1.drop a.length
    match r2 with
    | '@' :: r3 =>
      let b := r3.takeWhile addrC
      let r4 := r3.drop b.length
      ¬a.isEmpty ∧ ¬b.isEmpty ∧ (r4.dropWhile isWS).isEmpty
    | _ => false
  else false

/-- Curly-quote normalisation at the top of parser.py _split_emails. -/
def normalizeQuotes (t : Txt) : Txt :=
  t.map fun c =>
    if c = '‘' ∨ c = '’' then '\''
    else if c = '“' ∨ c = '”' then '"'
    else c

/-- Line loop of parser.py _split_emails: on a boundary line, flush the
current chunk (kept only if it validates) and restart collection; while
collection has started, append each line to the current chunk. -/
def splitLoop : List Txt → List Txt → List Txt → Bool → List Txt × List Txt
  | [], emails, current, _ => (emails, current)
  | l :: ls, emails, current, started =>
    let isB := boundary_match (stripTx l)
    let p :=
      if isB then
        ((if !current.isEmpty && validate_email_chunk current
          then emails ++ [joinLines current] else emails), ([] : List Txt), true)
      else (emails, current, started)
    let current' := if p.2.2 then p.2.1 ++ [l] else p.2.1
    splitLoop ls p.1 current' p.2.2

/-- parser.py _split_emails. -/
def split_emails (text0 : Txt) : List Txt :=
  let text := normalizeQuotes text0
  let lines := splitLines text
  let p := splitLoop lines [] [] false
  let emails :=
    if !p.2.isEmpty && validate_email_chunk p.2
    then p.1 ++ [joinLines p.2] else p.1
  if emails.isEmpty && validate_email_chunk lines then [text] else emails

/-- Delegation cue patterns of parser.py _extract_delegate_info,
matched with re.IGNORECASE. -/
def delegation_patterns : List RE :=
  [RE.seqs [RE.alts [RE.litCI "can", RE.litCI "could", RE.litCI "would"], wsP,
     RE.alts [RE.litCI "you", RE.litCI "someone"], wsP,
     RE.alts [RE.litCI "take", RE.litCI "handle", RE.litCI "cover"]],
   RE.seqs [RE.alts [RE.litCI "need", RE.litCI "looking for"], wsP,
     RE.alts [RE.litCI "someone", RE.litCI "anybody", RE.litCI "anyone"], wsP,
     RE.litCI "to", wsP,
     RE.alts [RE.litCI "take", RE.litCI "handle", RE.litCI "cover"]],
   RE.seqs [RE.alts [RE.litCI "please", RE.litCI "kindly"], wsP,
     RE.alts [RE.litCI "take", RE.litCI "handle", RE.litCI "cover"], wsP,
     RE.alts [RE.litCI "this", RE.litCI "the", RE.litCI "my"]],
   RE.seqs [RE.alts [RE.litCI "delegate", RE.litCI "transfer", RE.litCI "assign"], wsP,
     RE.alts [RE.litCI "to", RE.litCI "this", RE.litCI "the"]]]

/-- Pattern [\w\.-]+@[\w\.-]+\.\w+ of the findall in
_extract_delegate_info. -/
def emailFindRE : RE :=
  RE.seqs [RE.plus (.cls addrC), .cls (· = '@'), RE.plus (.cls addrC),
    .cls (· = '.'), RE.plus (.cls wordC)]

/-- re.findall of the address pattern (no groups: full match texts). -/
def email_findall (t : Txt) : List String :=
  (reFindIter emailFindRE t).map fun m => String.mk (m.matched t)

/-- Delegate result of parser.py _extract_delegate_info. -/
structure DelegateInfo where
  delegate_email : Option String
  delegate_name : Option String
  confidence : Int
deriving DecidableEq, Repr

/-- parser.py _extract_delegate_info: collect address tokens, accumulate
0.25 confidence per matching cue pattern, and if any cue matched and an
address distinct from the From and To headers exists, report the first
such address with the (capped) confidence.  Confidences are represented
in hundredths (0.25 = 25, the 1.0 cap = 100): the source's floating
increments of 0.25 are exact binary floats, so this integer scaling is
an order- and equality-faithful encoding that the proof kernel can
evaluate. -/
def extract_delegate_info (email_text : Txt) : DelegateInfo :=
  let emails := email_findall email_text
  let confidence : Int := delegation_patterns.foldl
    (fun acc p => if reTest p email_text then acc + 25 else acc) 0
  if confidence > 0 && !emails.isEmpty then
    let headers := extract_headers email_text
    let potential := emails.filter fun e =>
      headers.from_h ≠ some e && headers.to_h ≠ some e
    match potential with
    | d :: _ => ⟨some d, none, min confidence 100⟩
    | [] => ⟨none, none, 0⟩
  else ⟨none, none, 0⟩

/-- Time-extraction result of parser.py extract_time_info. -/
structure TimeInfoP where
  uncertainty : Bool
  alternative_times_suggested : Bool
  original_time : Option DT
  proposed_times : List DT
deriving DecidableEq, Repr

/-- Explicit date+time pattern of parser.py extract_time_info
(month name, day with optional ordinal suffix, optional "at", clock). -/
def dateTimeRE : RE :=
  RE.seqs [RE.grp 1 (RE.seqs [RE.alts (monthNames.map RE.litCI), wsP,
      .cls digitC, .opt (.cls digitC),
      .opt (RE.alts [RE.litCI "st", RE.litCI "nd", RE.litCI "rd", RE.litCI "th"])]),
    wsP, .opt (RE.seqs [RE.litCI "at", wsP]), RE.grp 2 timeRE]

/-- Relative-weekday pattern of parser.py extract_time_info
(optional "next", weekday stem, optional "day", optional 's,
optional "at", clock). -/
def weekdayRE : RE :=
  RE.seqs [RE.grp 1 (RE.seqs [.opt (RE.seqs [RE.litCI "next", wsP]),
      RE.alts [RE.litCI "Mon", RE.litCI "Tues", RE.litCI "Wednes", RE.litCI "Thurs",
        RE.litCI "Fri", RE.litCI "Satur", RE.litCI "Sun"],
      .opt (RE.litCI "day")]),
    .opt (.cls (· = '\'')), .opt (.cls (fun c => lowerCh c = 's')),
    wsP, .opt (RE.seqs [RE.litCI "at", wsP]), RE.grp 2 timeRE]

/-- weekday_map of parser.py, in insertion order. -/
def weekday_map : List (String × Int) :=
  [("monday", 0), ("mon", 0), ("tuesday", 1), ("tues", 1),
   ("wednesday", 2), ("wednes", 2), ("thursday", 3), ("thurs", 3),
   ("friday", 4), ("fri", 4), ("saturday", 5), ("satur", 5),
   ("sunday", 6), ("sun", 6)]

/-- First weekday_map entry whose name occurs in the lowered weekday
group (Python: for day_name, day_num in weekday_map.items():
if day_name in weekday_str). -/
def weekday_lookup (wdStr : Txt) : Option Int :=
  (weekday_map.find? fun p => containsSub wdStr (tx p.1)).map (·.2)

/-- Loop body of the weekday branch of parser.py extract_time_info:
days_ahead = target - current, plus 7 unconditionally under a "next"
qualifier, otherwise plus 7 only when the raw difference is ≤ 0; the
resolved instant is today shifted by days_ahead at the matched clock
time (via strftime of the target date and the clock string). -/
def resolve_weekday (today : DT) (wdStr timeStr : Txt) : Option DT :=
  match weekday_lookup wdStr with
  | none => none
  | some target =>
    let current := today.weekday
    let days_ahead : Int :=
      if containsSub wdStr (tx "next") then target - current + 7
      else
        let d := target - current
        if d ≤ 0 then d + 7 else d
    parseDayClock (today.day + days_ahead) timeStr

/-- Resolution of one explicit-date match of parser.py
(the source formats "{date_str} {time_str} {next_year}" for dateparser). -/
def resolve_explicit (next_year : Int) (dateStr timeStr : Txt) : Option DT :=
  parseExplicitDate dateStr timeStr next_year

/-- Uncertainty scan of parser.py extract_time_info: the fixed pattern
list, any hit sets the flag (the source breaks at the first hit). -/
def uncertainty_search (text : Txt) : Bool :=
  containsSubCI text (tx "possible") || containsSubCI text (tx "would it be") ||
  containsSubCI text (tx "can we") || containsSubCI text (tx "maybe") ||
  containsSubCI text (tx "not sure") || containsSubCI text (tx "if possible") ||
  (containsSubCI text (tx "could you") || containsSubCI text (tx "would you")) ||
  containsSubCI text (tx "available") ||
  guardedOccur text (tx "flexible") (tx "not ")

/-- Body of the explicit-date loop of parser.py extract_time_info:
group 1 is the date expression, group 2 the clock; the resolved instant
(if any) is appended to found_times. -/
def explicit_of_match (next_year : Int) (text : Txt) (m : Mtch) : Option DT :=
  match m.group text 1, m.group text 2 with
  | some ds, some ts => resolve_explicit next_year ds ts
  | _, _ => none

/-- Body of the weekday loop of parser.py extract_time_info: group 1 is
the (lowered) weekday expression, group 2 the clock. -/
def weekday_of_match (now : DT) (text : Txt) (m : Mtch) : Option DT :=
  match m.group text 1, m.group text 2 with
  | some ws_, some ts => resolve_weekday now (lowerTx ws_) ts
  | _, _ => none

/-- Append-style collection loop over matches (for match in ...: if
parsed: found_times.append(parsed)). -/
def collect (f : Mtch → Option DT) (ms : List Mtch) (acc : List DT) : List DT :=
  ms.foldl (fun a m => match f m with | some dt => a ++ [dt] | none => a) acc

/-- parser.py extract_time_info: resolve all explicit-date matches, then
all weekday matches, into one found_times list; the first found time is
original_time, the rest are proposed_times, and
alternative_times_suggested is set when more than one time was found;
the uncertainty scan runs independently. -/
def extract_time_info (now : DT) (text : Txt) : TimeInfoP :=
  let next_year := (civilFromDays now.day).year + 1
  let found1 := collect (explicit_of_match next_year text) (reFindIter dateTimeRE text) []
  let found := collect (weekday_of_match now text) (reFindIter weekdayRE text) found1
  match found with
  | [] => ⟨uncertainty_search text, false, none, []⟩
  | f :: rest => ⟨uncertainty_search text, !rest.isEmpty, some f, rest⟩

end ParserPy

/-- Case-insensitive literal pattern built from a character list (for
patterns the source interpolates at runtime, like the formatted clock
string of _find_time_confirmation). -/
def RE.litTxtCI (t : Txt) : RE :=
  RE.seqs (t.map fun c => .cls (fun x => lowerCh x = lowerCh c))

namespace Parser1

/-- Header triple extracted by parser_1.py EmailParser._extract_headers. -/
structure HeadersQ where
  from_h : Option String
  to_h : Option String
  subject : Option String
deriving DecidableEq, Repr

/-- Header pattern "Key: ([^\n]+)" of parser_1._extract_headers
(case-sensitive re.search anywhere in the text). -/
def hdrRE (key : String) : RE :=
  RE.seqs [RE.lit (key ++ ": "), RE.grp 1 (RE.plus (.cls (· ≠ '\n')))]

/-- One header lookup: first match anywhere, group 1 stripped. -/
def find_header (key : String) (t : Txt) : Option String :=
  (reSearch (hdrRE key) t).bind fun m =>
    (m.group t 1).map fun g => String.mk (stripTx g)

/-- parser_1.py _extract_headers. -/
def extract_headers (t : Txt) : HeadersQ :=
  ⟨find_header "From" t, find_header "To" t, find_header "Subject" t⟩

/-- Shorthand: https?:// -/
def httpRE : RE := RE.seqs [RE.litCI "http", .opt (RE.litCI "s"), RE.litCI "://"]

/-- Character class [\w-]. -/
def wdashC (c : Char) : Bool := wordC c || c = '-'

/-- Python \S. -/
def nonWS (c : Char) : Bool := ¬ isWS c

/-- Meeting-link patterns of parser_1._extract_link (re.IGNORECASE). -/
def link_patterns : List RE :=
  [RE.seqs [httpRE, .star (RE.seqs [RE.plus (.cls wdashC), .cls (· = '.')]),
     RE.alts [RE.litCI "webinar", RE.litCI "zoom", RE.litCI "teams",
       RE.litCI "meet", RE.litCI "calendly"],
     .cls (· = '.'), RE.alts [RE.litCI "com", RE.litCI "us", RE.litCI "net"],
     .cls (· = '/'), RE.plus (.cls nonWS)],
   RE.seqs [httpRE, RE.plus (.cls nonWS),
     .cls (· = '.'), RE.alts [RE.litCI "com", RE.litCI "us", RE.litCI "net"],
     .cls (· = '/'),
     RE.alts [RE.litCI "meet", RE.litCI "join", RE.litCI "reschedule",
       RE.litCI "webinar", RE.litCI "conference"],
     .star (.cls nonWS)]]

/-- parser_1._extract_link: first pattern with a match wins; the full
matched text is returned. -/
def extract_link (t : Txt) : Option String :=
  go link_patterns
where
  go : List RE → Option String
    | [] => none
    | p :: ps =>
      match reSearch p t with
      | some m => some (String.mk (m.matched t))
      | none => go ps

/-- Delegate patterns of parser_1._extract_delegate (re.IGNORECASE),
paired with their number of capture groups. -/
def delegate_patterns : List (RE × Nat) :=
  [(RE.seqs [RE.litCI "my associate", .opt (.cls (· = ',')), wsS,
      .opt (RE.plus (.cls wordC)), wsS,
      .cls (· = '('), RE.grp 1 emailRE, .cls (· = ')')], 1),
   (RE.seqs [RE.litCI "delegate", wsP, RE.litCI "to", wsP, RE.grp 1 emailRE], 1),
   (RE.seqs [RE.alts [RE.litCI "my", RE.litCI "the"], wsP, RE.litCI "associate",
      .opt (.cls (· = ',')), wsS, RE.grp 1 (RE.plus (.cls wordC)), wsS,
      .cls (· = '('), RE.grp 2 emailRE, .cls (· = ')')], 2),
   (RE.seqs [RE.alts [RE.litCI "my", RE.litCI "the"], wsP, RE.litCI "associate",
      .opt (.cls (· = ',')), wsS, RE.grp 1 (RE.plus (.cls wordC)), wsS,
      .opt (RE.seqs [.cls (· = '('), .star (.cls (· ≠ ')')), .cls (· = ')')]),
      .opt (.cls (· = ',')), wsS, RE.grp 2 emailRE], 2),
   (RE.seqs [RE.litCI "step", wsP, RE.litCI "in", .lstar (· ≠ '.'),
      RE.grp 1 emailRE], 1),
   (RE.seqs [RE.grp 1 emailRE, wsS,
      RE.alts [RE.litCI "can", RE.litCI "will", RE.litCI "should", RE.litCI "to"],
      wsP,
      RE.alts [RE.litCI "handle", RE.litCI "take over", RE.litCI "step in"]], 1)]

/-- Group scan of parser_1._extract_delegate: walk the captured groups in
reverse index order and return the first non-empty one containing '@'. -/
def scan_groups (t : Txt) (m : Mtch) : List Nat → Option String
  | [] => none
  | n :: rest =>
    match m.group t n with
    | some g =>
      if !g.isEmpty && containsSub g (tx "@") then some (String.mk g)
      else scan_groups t m rest
    | none => scan_groups t m rest

/-- parser_1._extract_delegate: patterns are tried in order; on a match,
the reversed group scan may return an address, otherwise the next
pattern is tried. -/
def extract_delegate (t : Txt) : Option String :=
  go delegate_patterns
where
  go : List (RE × Nat) → Option String
    | [] => none
    | (p, maxg) :: ps =>
      match reSearch p t with
      | some m =>
        match scan_groups t m (((List.range maxg).map (· + 1)).reverse) with
        | some g => some g
        | none => go ps
      | none => go ps

/-- Additional-info dictionary of parser_1 (the shape shared by
extract_time_info and _extract_additional_info). -/
structure TimeInfoQ where
  uncertainty : Bool
  alternative_times_suggested : Bool
  delegate_name : Option String
  delegate_email : Option String
  original_time : Option DT
  proposed_times : List DT
deriving DecidableEq, Repr

/-- Initial value of the additional-info dictionary. -/
def TimeInfoQ.init : TimeInfoQ := ⟨false, false, none, none, none, []⟩

/-- Weekday+time pattern of parser_1.extract_time_info (same as the
parser.py one but without the apostrophe-s suffix). -/
def weekdayQRE : RE :=
  RE.seqs [RE.grp 1 (RE.seqs [.opt (RE.seqs [RE.litCI "next", wsP]),
      RE.alts [RE.litCI "Mon", RE.litCI "Tues", RE.litCI "Wednes", RE.litCI "Thurs",
        RE.litCI "Fri", RE.litCI "Satur", RE.litCI "Sun"],
      .opt (RE.litCI "day")]),
    wsP, .opt (RE.seqs [RE.litCI "at", wsP]), RE.grp 2 timeRE]

/-- Time-confirmation pattern of parser_1.extract_time_info:
a clock time followed by a confirmation verb phrase. -/
def confTimeRE : RE :=
  RE.seqs [RE.grp 1 timeRE, wsP,
    RE.alts [RE.litCI "works", RE.litCI "is fine", RE.litCI "is good",
      RE.litCI "is perfect", RE.litCI "is set", RE.litCI "confirmed"]]

/-- parser_1.extract_time_info.  The weekday loop calls
self._parse_weekday_time, a method that does not exist anywhere in the
repository, so its first iteration raises AttributeError; the
surrounding try/except then returns the untouched default dictionary.
Hence: any weekday+time match at all yields the defaults, and only
texts without weekday matches get their confirmation-phrase times
collected (resolved with future preference against now). -/
def extract_time_info (now : DT) (text : Txt) : TimeInfoQ :=
  match reFindIter weekdayQRE text with
  | _ :: _ => TimeInfoQ.init
  | [] =>
    let found := (reFindIter confTimeRE text).foldl
      (fun acc m =>
        match m.group text 1 with
        | some ts =>
          match parseClockFuture now ts with
          | some dt => acc ++ [dt]
          | none => acc
        | none => acc) []
    match found with
    | [] => TimeInfoQ.init
    | f :: rest =>
      { TimeInfoQ.init with
          alternative_times_suggested := !rest.isEmpty,
          original_time := some f,
          proposed_times := rest }

/-- Default uncertainty patterns of parser_1._extract_additional_info
(the custom-model config is absent from the repository, so the default
list applies); they are plain literals searched in the lowered text. -/
def uncertainty_defaults : List String :=
  ["high chance", "depending on", "might be able", "not sure", "possibly",
   "tentative"]

/-- Line 185 of parser_1.py: any(re.search(pattern, text) for pattern in
uncertainty_patterns) over the lowered text. -/
def uncertainty_any (ltext : Txt) : Bool :=
  uncertainty_defaults.any fun p => containsSub ltext (tx p)

/-- Delegate patterns of parser_1._extract_delegate_info (case-sensitive,
applied to the lowered text). -/
def delegate_info_patterns : List RE :=
  [RE.seqs [RE.alts [RE.lit "my", RE.lit "the"], wsP, RE.lit "associate",
     .opt (.cls (· = ',')), wsS, RE.grp 1 (RE.plus (.cls wordC)), wsS,
     .cls (· = '('), RE.grp 2 emailRE, .cls (· = ')')],
   RE.seqs [RE.alts [RE.lit "my", RE.lit "the"], wsP, RE.lit "associate",
     .opt (.cls (· = ',')), wsS, RE.grp 1 (RE.plus (.cls wordC)),
     .lstar (· ≠ '('), RE.grp 2 emailRE]]

/-- parser_1._extract_delegate_info: first matching pattern returns
(delegate_name, delegate_email) from groups 1 and 2. -/
def extract_delegate_info (t : Txt) : Option (String × String) :=
  go delegate_info_patterns
where
  go : List RE → Option (String × String)
    | [] => none
    | p :: ps =>
      match reSearch p t with
      | some m =>
        match m.group t 1, m.group t 2 with
        | some n, some e => some (String.mk n, String.mk e)
        | _, _ => go ps
      | none => go ps

/-- parser_1._extract_additional_info.  Line 185 computes the
uncertainty flag (uncertainty_any of the lowered text), but line 189's
info.update(time_info) overwrites every key of the dictionary with
extract_time_info's result — whose uncertainty is always False — so the
computed flag is discarded.  The delegate update then runs on top. -/
def extract_additional_info (now : DT) (text : Txt) : TimeInfoQ :=
  let ltext := lowerTx text
  let _unc := uncertainty_any ltext
  let ti := extract_time_info now ltext
  match extract_delegate_info ltext with
  | some (n, e) => { ti with delegate_name := some n, delegate_email := some e }
  | none => ti

/-- Two-literal ".*?" search: the first literal occurs, and the second
occurs later with no newline in between (Python '.' does not match
newlines); case-insensitive. -/
def searchDotSeq (t a b : Txt) : Bool :=
  let lt := lowerTx t
  let la := lowerTx a
  let lb := lowerTx b
  (subPositions lt la).any fun i => noNLthenFind (lt.drop (i + la.length)) lb
where
  noNLthenFind : Txt → Txt → Bool
    | s, p =>
      if startsWith s p then true
      else match s with
        | [] => false
        | c :: r => if c = '\n' then false else noNLthenFind r p

/-- Bit length of a natural number, written with structural fuel so the
kernel reduces it; 64 bits of fuel covers every value reachable in the
score computation below. -/
def bitLen : Nat → Nat → Nat
  | 0, _ => 0
  | _ + 1, 0 => 0
  | fuel + 1, n => bitLen fuel (n / 2) + 1

/-- Round a nonnegative integer, read as a real value scaled by 2^56, to
the nearest IEEE-754 binary64 value (53 significant bits, ties to even):
keep the top 53 bits of the integer, rounding the rest half-to-even.
For a value in [2^e, 2^(e+1)) the scaled integer has bit length e + 57
and the binary64 grid spacing is 2^(e-52), i.e. 2^(e+4) after scaling —
exactly the low bits dropped here.  All scores reachable below are normal,
nonnegative and far below the 64-bit fuel. -/
def roundTo53 (v : Int) : Int :=
  let n := v.toNat
  let b := bitLen 64 n
  if b ≤ 53 then (n : Int)
  else
    let p := (2 : Nat) ^ (b - 53)
    let q := n / p
    let r := n % p
    let half := p / 2
    let q' :=
      if half < r then q + 1
      else if r < half then q
      else if q % 2 = 0 then q else q + 1
    ((q' * p : Nat) : Int)

/-- Python float addition on the scaled-by-2^56 representation: add the
exact values, then round to the nearest binary64 (round half to even),
which is precisely what score += weight does on IEEE doubles. -/
def addF (a b : Int) : Int := roundTo53 (a + b)

/-- The source's literal weight 0.2 as the exact value of its binary64
representation (3602879701896397 / 2^54), scaled by 2^56. -/
def w02 : Int := 14411518807585588

/-- The binary64 value of the literal 0.3, scaled by 2^56. -/
def w03 : Int := 21617278211378380

/-- The binary64 value of the literal 0.4, scaled by 2^56. -/
def w04 : Int := 28823037615171176

/-- The binary64 value of the literal 0.5 (exact), scaled by 2^56. -/
def w05 : Int := 36028797018963968

/-- The binary64 value of the literal 0.6, scaled by 2^56. -/
def w06 : Int := 43234556422756760

/-- The binary64 value of the literal 0.7, scaled by 2^56. -/
def w07 : Int := 50440315826549552

/-- The binary64 value of the literal 0.8, scaled by 2^56. -/
def w08 : Int := 57646075230342352

/-- Per-candidate score of parser_1.determine_most_probable_time: the
month/day and hour/am-pm proximity patterns, the fixed preference-word
weights, and (when an original time exists) the same-date,
business-hours and later-than-original bonuses.  The accumulator models
the source's float exactly: each weight is the precise value of its
binary64 literal scaled by 2^56, and each += rounds the exact sum back
to binary64 (addF), in the source's accumulation order — so, e.g.,
adding 0.2 and then 0.4 yields a value strictly above a single 0.6, as
it does in Python. -/
def score (orig : Option DT) (text : Txt) (dt : DT) : Int :=
  let c := civilFromDays dt.day
  let month := tx (monthName c.month)
  let dayS := tx (toString c.day)
  let hourS := tx (toString dt.hour12)
  let ampmS := tx dt.ampm
  let s1 := if searchDotSeq text month dayS then addF 0 w08 else 0
  let s2 := if searchDotSeq text hourS ampmS then addF s1 w06 else s1
  let s3 := if containsSubCI text (tx "prefer") then addF s2 w07 else s2
  let s4 := if containsSubCI text (tx "suggest") then addF s3 w06 else s3
  let s5 := if containsSubCI text (tx "recommend") then addF s4 w07 else s4
  let s6 := if containsSubCI text (tx "better") then addF s5 w05 else s5
  let s7 := if containsSubCI text (tx "ideal") then addF s6 w08 else s6
  let s8 := if containsSubCI text (tx "good") then addF s7 w04 else s7
  match orig with
  | some o =>
    let s9 := if dt.day = o.day then addF s8 w03 else s8
    let s10 := if 9 ≤ dt.hour ∧ dt.hour ≤ 17 then addF s9 w02 else s9
    if DT.lt o dt then addF s10 w04 else s10
  | none => s8

/-- Python dict assignment time_scores[dt] = score: update in place when
the key exists (keeping its position), else append. -/
def upsert (l : List (DT × Int)) (k : DT) (v : Int) : List (DT × Int) :=
  match l with
  | [] => [(k, v)]
  | (k', v') :: r => if k' = k then (k', v) :: r else (k', v') :: upsert r k v

/-- Python max(items, key=score): keep the current maximum, replacing it
only on a strictly greater key, so the first maximum encountered wins. -/
def py_max : (DT × Int) → List (DT × Int) → (DT × Int)
  | cur, [] => cur
  | cur, x :: r => py_max (if cur.2 < x.2 then x else cur) r

/-- parser_1.determine_most_probable_time.  The proposed times reaching
this function are isoformat strings, which are non-empty (so the
truthiness filter keeps them all) and which dateparser round-trips to
the instants they were printed from; the embedding therefore passes the
instants directly. -/
def determine_most_probable_time (orig : Option DT) (proposed : List DT)
    (text : Txt) : Option DT :=
  if proposed.isEmpty && orig.isNone then none
  else if proposed.isEmpty then orig
  else
    let times := proposed
    if times.isEmpty then (if orig.isSome then orig else none)
    else match times with
    | [t] => some t
    | _ =>
      let scored := times.foldl (fun acc dt => upsert acc dt (score orig text dt)) []
      match scored with
      | s :: rest => some (py_max s rest).1
      | [] => if orig.isSome then orig else none

end Parser1

namespace Parser1

/-- Stable descending insertion for Python
sorted(cats.items(), key=lambda x: x[1], reverse=True): an element is
placed after all existing elements with a greater-or-equal score. -/
def insertDesc (x : String × Int) : List (String × Int) → List (String × Int)
  | [] => [x]
  | y :: r => if y.2 < x.2 then x :: y :: r else y :: insertDesc x r

/-- Stable descending sort by score. -/
def sortedDesc (l : List (String × Int)) : List (String × Int) :=
  l.foldl (fun acc x => insertDesc x acc) []

/-- Per-email output record of parser_1.parse_email (keys of the result
dictionary; _raw_text is the raw-text key added for thread context). -/
structure EmailRecord where
  from_email : Option String
  to_email : Option String
  subject : Option String
  reply_type : String
  reply_type_scores : List (String × Int)
  proposed_time : Option DT
  meeting_link : Option String
  delegate_to : Option String
  additional_info : TimeInfoQ
  additional_notes : Option String
  processed_at : String
  raw_text : Txt
deriving DecidableEq, Repr

/-- Processing context: the reference "now" of datetime.now(), the
external spacy classification capability (doc.cats, with confidences
in integer hundredths of the unit interval), and the datetime.utcnow()
processing timestamp. -/
structure Ctx where
  now : DT
  cats : Txt → List (String × Int)
  procAt : String

/-- parser_1.parse_email. -/
def parse_email (ctx : Ctx) (email_text : Txt) : EmailRecord :=
  let headers := extract_headers email_text
  let reply_types := sortedDesc (ctx.cats email_text)
  let reply_type_scores := reply_types.filter fun kv => (30 : Int) < kv.2
  let time_info := extract_time_info ctx.now email_text
  let primary0 := match reply_types with
    | [] => "unknown"
    | kv :: _ => kv.1
  let primary :=
    if 1 < reply_type_scores.length
        && (reply_type_scores.any (·.1 = "reschedule")
            && reply_type_scores.any (·.1 = "delegation"))
    then "reschedule_with_delegation" else primary0
  -- line 50 computes _extract_additional_info; its result is never read
  let _ai := extract_additional_info ctx.now email_text
  let proposed_time := determine_most_probable_time
    time_info.original_time time_info.proposed_times email_text
  let meeting_link := extract_link email_text
  let delegate_info := extract_delegate email_text
  let notes :=
    (if time_info.uncertainty then ["Schedule uncertainty indicated"] else []) ++
    (if time_info.alternative_times_suggested then
      ["Alternative times suggested: " ++
        String.intercalate ", " (time_info.proposed_times.map DT.iso)] else []) ++
    (match time_info.original_time with
     | some t => ["Original time was " ++ t.iso]
     | none => [])
  { from_email := headers.from_h
    to_email := headers.to_h
    subject := headers.subject
    reply_type := primary
    reply_type_scores := reply_type_scores
    proposed_time := proposed_time
    meeting_link := meeting_link
    delegate_to := delegate_info
    additional_info := time_info
    additional_notes :=
      if notes.isEmpty then none
      else some (String.intercalate "\n" (notes.map ("- " ++ ·)))
    processed_at := ctx.procAt
    raw_text := email_text }

/-- Cut a text at the given ascending positions (re.split on the
zero-width lookahead (?=From:) cuts before every occurrence). -/
def splitAtPos (t : Txt) : List Nat → List Txt
  | [] => [t]
  | p :: rest => t.take p :: chunks (p :: rest)
where
  chunks : List Nat → List Txt
    | [] => []
    | [p] => [t.drop p]
    | p :: q :: rest => (t.drop p).take (q - p) :: chunks (q :: rest)

/-- parser_1.split_emails: split before every occurrence of "From:",
then strip each piece and drop the empty ones. -/
def split_emails (t : Txt) : List Txt :=
  let pieces := splitAtPos t (subPositions t (tx "From:"))
  (pieces.map stripTx).filter (fun e => !e.isEmpty)

/-- Confirmation test of parser_1._find_time_confirmation: the four
patterns built from the previous time's clock string and weekday name,
searched case-insensitively; any hit confirms. -/
def conf_match (p : DT) (text : Txt) : Bool :=
  let time_str := p.clockStr
  let weekday := tx p.weekdayName
  reTest (RE.seqs [RE.litTxtCI weekday, wsP, RE.litCI "at", wsP,
    RE.litTxtCI time_str]) text ||
  reTest (RE.seqs [RE.litTxtCI time_str, wsP,
    RE.alts [RE.litCI "works", RE.litCI "is fine", RE.litCI "is good",
      RE.litCI "is perfect"]]) text ||
  reTest (RE.seqs [RE.litTxtCI weekday, wsP,
    RE.alts [RE.litCI "works", RE.litCI "is fine", RE.litCI "is good",
      RE.litCI "is perfect"]]) text ||
  reTest (RE.alts [RE.litCI "confirmed", RE.litCI "all set",
    RE.litCI "works perfectly"]) text

/-- parser_1._find_time_confirmation.  A missing previous time returns
the current time unchanged; the previous time is an isoformat string
that dateparser round-trips, so the unparseable branch is dead; on a
confirmation hit the previous time is returned, else the current one. -/
def find_time_confirmation (current_time : Option DT) (prev_time : Option DT)
    (text : Txt) : Option DT :=
  match prev_time with
  | none => current_time
  | some p => if conf_match p text then some p else current_time

/-- One iteration of the thread-context loop of parse_email_thread:
when the previous record has a proposed time and the current one does
not, a detected confirmation copies the previous proposed time into the
current record's proposed_time and additional_info.original_time. -/
def reconcile_step (prev c : EmailRecord) : EmailRecord :=
  if prev.proposed_time.isSome && c.proposed_time.isNone then
    match find_time_confirmation c.additional_info.original_time
        prev.proposed_time c.raw_text with
    | some t =>
      { c with proposed_time := some t,
               additional_info := { c.additional_info with original_time := some t } }
    | none => c
  else c

/-- Tail of the thread-context loop: each step's (possibly updated)
record becomes the predecessor of the next, as in the in-place list
mutation of the source. -/
def reconcile_go (prev : EmailRecord) : List EmailRecord → List EmailRecord
  | [] => []
  | c :: rest =>
    let c' := reconcile_step prev c
    c' :: reconcile_go c' rest

/-- Thread-context pass of parse_email_thread over the parsed records. -/
def reconcile : List EmailRecord → List EmailRecord
  | [] => []
  | h :: t => h :: reconcile_go h t

/-- parser_1.parse_email_thread: split the blob, parse the chunks in
reversed order, then run the thread-context pass. -/
def parse_email_thread (ctx : Ctx) (thread_text : Txt) : List EmailRecord :=
  reconcile (((split_emails thread_text).reverse).map (parse_email ctx))

end Parser1

section HelperLemmas

/-- The confidence fold of _extract_delegate_info counts the matching
patterns in quarter-steps of 25 hundredths. -/
theorem foldl_quarter (t : Txt) (ps : List RE) (a : Int) :
    ps.foldl (fun acc p => if reTest p t then acc + 25 else acc) a
      = a + (ps.countP fun p => reTest p t) * 25 := by
  induction ps generalizing a with
  | nil => simp
  | cons p ps ih =>
    simp only [List.foldl_cons, List.countP_cons]
    by_cases h : reTest p t
    · rw [ih]
      simp only [h, if_true]
      push_cast
      ring
    · rw [ih]
      simp [h]

/-- The append-style collection loop is a filterMap. -/
theorem collect_eq (f : Mtch → Option DT) (ms : List Mtch) (acc : List DT) :
    ParserPy.collect f ms acc = acc ++ ms.filterMap f := by
  induction ms generalizing acc with
  | nil => simp [ParserPy.collect]
  | cons m ms ih =>
    simp only [ParserPy.collect, List.foldl_cons] at ih ⊢
    cases h : f m <;> simp [h, ih, List.filterMap_cons]

end HelperLemmas

section ClaimInputs

/-- Concrete processing context: now = 1970-01-07 (a Wednesday) 00:00,
empty classification output, fixed processing timestamp. -/
def ctxW : Parser1.Ctx := ⟨⟨6, 0⟩, fun _ => [], "1970-01-07T00:00:00"⟩

/-- Two-email reply-chain blob: the confirming reply on top, the
proposing email (with "Friday at 2pm") below it. -/
def c1blob : Txt :=
  tx "From: b@b.b\nTo: a@a.a\nSubject: r\nFriday works for me\nFrom: a@a.a\nTo: b@b.b\nSubject: m\nFriday at 2pm"

/-- Two well-formed emails with distinct From headers. -/
def c2blob : Txt :=
  tx "From: a@b.c\nTo: x@y.z\nSubject: s1\nhi\nFrom: d@e.f\nTo: x@y.z\nSubject: s2\nyo"

/-- Email text whose only delegation cue names the sender's own
address. -/
def c4txt : Txt :=
  tx "From: alice@x.com\nTo: bob@y.com\nSubject: hi\nPlease delegate to alice@x.com"

/-- Text with an earlier weekday mention and a later explicit-date
mention. -/
def c6txt : Txt := tx "Monday at 3pm or January 5 at 2pm"

end ClaimInputs

/-- C1: parser_1's extract_time_info can never resolve a weekday+time
proposal such as "Friday at 2pm": its loop calls the undefined method
_parse_weekday_time, so the first weekday match raises AttributeError
and the except clause returns the empty default.  Hence in the
two-email thread c1blob (confirming reply first, proposing email below,
the layout parse_email_thread's reversed() parsing expects) every
record of parse_email_thread ends with proposed_time = none and
additional_info.original_time = none, although the proposing email's
text does match the weekday pattern — instead of the later email
carrying the resolved Friday-2pm instant as the claim requires. -/
theorem C1_weekday_bug :
    (Parser1.split_emails c1blob).length = 2 ∧
    reFindIter Parser1.weekdayQRE
      (tx "From: a@a.a\nTo: b@b.b\nSubject: m\nFriday at 2pm") ≠ [] ∧
    (Parser1.parse_email_thread ctxW c1blob).map Parser1.EmailRecord.proposed_time
      = [none, none] ∧
    (Parser1.parse_email_thread ctxW c1blob).map
      (fun r => r.additional_info.original_time) = [none, none] := by
  refine ⟨by decide, by decide, by decide, by decide⟩

/-- C9: the uncertainty flag computed at line 185 of parser_1.py from
patterns including "possibly" is discarded by the dict update at line
189, so _extract_additional_info returns uncertainty = false even for
the text "possibly"; parser.py's extract_time_info (whose pattern list
has "possible" but not "possibly") also yields false there.  The
negative half of the claim does hold: "not flexible" alone triggers
neither extractor. -/
theorem C9_uncertainty_bug :
    Parser1.uncertainty_any (lowerTx (tx "possibly")) = true ∧
    (Parser1.extract_additional_info ⟨6, 0⟩ (tx "possibly")).uncertainty = false ∧
    (ParserPy.extract_time_info ⟨6, 0⟩ (tx "possibly")).uncertainty = false ∧
    (Parser1.extract_additional_info ⟨6, 0⟩ (tx "not flexible")).uncertainty = false ∧
    (ParserPy.extract_time_info ⟨6, 0⟩ (tx "not flexible")).uncertainty = false := by
  refine ⟨by decide, by decide, by decide, by decide, by decide⟩

/-- C2 counterexample: on a blob with two distinct well-formed emails,
parse_email_thread returns the record of the second-appearing email at
index 0 — the output sequence is the reverse of input appearance order,
not the input order the claim states. -/
theorem C2_counterexample :
    Parser1.split_emails c2blob =
      [tx "From: a@b.c\nTo: x@y.z\nSubject: s1\nhi",
       tx "From: d@e.f\nTo: x@y.z\nSubject: s2\nyo"] ∧
    (Parser1.parse_email_thread ctxW c2blob).map Parser1.EmailRecord.raw_text =
      [tx "From: d@e.f\nTo: x@y.z\nSubject: s2\nyo",
       tx "From: a@b.c\nTo: x@y.z\nSubject: s1\nhi"] ∧
    tx "From: a@b.c\nTo: x@y.z\nSubject: s1\nhi" ≠
      tx "From: d@e.f\nTo: x@y.z\nSubject: s2\nyo" := by
  refine ⟨by decide, by decide, by decide⟩

/-- C3 counterexample: on the blob "hello" the validated line-boundary
splitter of parser.py returns no chunks, while the literal From:
splitter of parser_1.py returns the blob itself — the two strategies
are not observationally equivalent. -/
theorem C3_counterexample :
    ParserPy.split_emails (tx "hello") = [] ∧
    Parser1.split_emails (tx "hello") = [tx "hello"] ∧
    ([] : List Txt) ≠ [tx "hello"] := by
  refine ⟨by decide, by decide, by decide⟩

/-- C4 counterexample: parser_1's _extract_delegate applies no
sender/recipient exclusion; on c4txt it reports the From header's own
address as the delegate, and that address reaches the record's
delegate_to field. -/
theorem C4_counterexample :
    Parser1.extract_delegate c4txt = some "alice@x.com" ∧
    (Parser1.parse_email ctxW c4txt).delegate_to = some "alice@x.com" ∧
    (Parser1.parse_email ctxW c4txt).from_email = some "alice@x.com" := by
  refine ⟨by decide, by decide, by decide⟩

/-- C5 counterexample: with now = 1970-01-07, a Wednesday (weekday 2),
parser.py resolves "next Monday at 3pm" to day 11 = now + 5 days (the
Monday five days later) at 15:00 — not the Monday eight days later
(day 14) the claim states. -/
theorem C5_counterexample :
    (DT.mk 6 0).weekday = 2 ∧
    (ParserPy.extract_time_info ⟨6, 0⟩ (tx "next Monday at 3pm")).original_time
      = some ⟨11, 900⟩ ∧
    (11 : Int) = 6 + 5 ∧
    (ParserPy.extract_time_info ⟨6, 0⟩ (tx "next Monday at 3pm")).original_time
      ≠ some ⟨14, 900⟩ := by
  refine ⟨by decide, by decide, by decide, by decide⟩

/-- C6 counterexample: in c6txt the weekday mention starts at position 0
and the explicit-date mention at position 17, yet original_time is the
explicit date's instant (1971-01-05 14:00, day 369) and the weekday
instant (day 11, 15:00) is relegated to proposed_times: candidates are
grouped by pattern class, not ordered by first match position. -/
theorem C6_counterexample :
    (reFindIter ParserPy.weekdayRE c6txt).map Mtch.start = [0] ∧
    (reFindIter ParserPy.dateTimeRE c6txt).map Mtch.start = [17] ∧
    (ParserPy.extract_time_info ⟨6, 0⟩ c6txt).original_time = some ⟨369, 840⟩ ∧
    (ParserPy.extract_time_info ⟨6, 0⟩ c6txt).proposed_times = [⟨11, 900⟩] ∧
    (ParserPy.extract_time_info ⟨6, 0⟩ c6txt).original_time ≠ some ⟨11, 900⟩ := by
  refine ⟨by decide, by decide, by decide, by decide, by decide⟩

/-- C10: for every email text, _extract_delegate_info returns a
confidence that is a multiple of 0.25 lying in [0,1] (k·25 hundredths
with k ≤ 4), and it reports a delegate_email exactly when that
confidence is non-zero. -/
theorem C10_delegate_confidence (t : Txt) :
    ∃ k : ℕ, k ≤ 4 ∧
      (ParserPy.extract_delegate_info t).confidence = (k : Int) * 25 ∧
      ((ParserPy.extract_delegate_info t).delegate_email = none ↔
        (ParserPy.extract_delegate_info t).confidence = 0) := by
  have hlen : ParserPy.delegation_patterns.length = 4 := rfl
  set n := ParserPy.delegation_patterns.countP (fun p => reTest p t) with hn
  have hnle : n ≤ 4 := hlen ▸ List.countP_le_length _
  have hfold : ParserPy.delegation_patterns.foldl
      (fun acc p => if reTest p t then acc + 25 else acc) (0 : Int) = (n : Int) * 25 := by
    rw [foldl_quarter]; ring
  simp only [ParserPy.extract_delegate_info, hfold]
  by_cases hcond : ((n : Int) * 25 > 0 && !(ParserPy.email_findall t).isEmpty) = true
  · rw [if_pos hcond]
    rcases hpot : (ParserPy.email_findall t).filter (fun e =>
        (ParserPy.extract_headers t).from_h ≠ some e &&
        (ParserPy.extract_headers t).to_h ≠ some e) with _ | ⟨d, rest⟩
    · exact ⟨0, by norm_num⟩
    · have hnz : 0 < n := by
        simp only [Bool.and_eq_true, decide_eq_true_eq] at hcond
        have := hcond.1
        omega
      have hcap : min ((n : Int) * 25) 100 = (n : Int) * 25 := by
        apply min_eq_left
        omega
      refine ⟨n, hnle, by simp [hcap], ?_⟩
      constructor
      · intro hfalse
        simp at hfalse
      · intro hzero
        simp only [hcap] at hzero
        omega
  · rw [if_neg hcond]
    exact ⟨0, by norm_num⟩

/-- C4 (amended): parser.py's _extract_delegate_info does satisfy the
exclusion invariant — whenever it reports a delegate address, that
address differs from both the From and the To header of the same
email. -/
theorem C4_exclusion (t : Txt) (d : String)
    (h : (ParserPy.extract_delegate_info t).delegate_email = some d) :
    (ParserPy.extract_headers t).from_h ≠ some d ∧
    (ParserPy.extract_headers t).to_h ≠ some d := by
  simp only [ParserPy.extract_delegate_info] at h
  split at h
  · rcases hpot : (ParserPy.email_findall t).filter (fun e =>
        (ParserPy.extract_headers t).from_h ≠ some e &&
        (ParserPy.extract_headers t).to_h ≠ some e) with _ | ⟨d', rest⟩
    · rw [hpot] at h
      simp at h
    · rw [hpot] at h
      simp only at h
      injection h with hd
      have hmem : d' ∈ (ParserPy.email_findall t).filter (fun e =>
          (ParserPy.extract_headers t).from_h ≠ some e &&
          (ParserPy.extract_headers t).to_h ≠ some e) := by
        rw [hpot]; exact List.mem_cons_self _ _
      have hp := (List.mem_filter.mp hmem).2
      rw [← hd]
      simpa using hp
  · simp at h

/-- C4 witness: a concrete email on which _extract_delegate_info
reports a delegate, so the exclusion theorem applies with its
hypothesis discharged. -/
theorem C4_exclusion_witness :
    (ParserPy.extract_delegate_info
      (tx "From: a@b.com\nTo: c@d.com\nSubject: s\ncan you take this? contact ee@ff.gg")).delegate_email
      = some "ee@ff.gg" ∧
    (ParserPy.extract_headers
      (tx "From: a@b.com\nTo: c@d.com\nSubject: s\ncan you take this? contact ee@ff.gg")).from_h
      ≠ some "ee@ff.gg" ∧
    (ParserPy.extract_headers
      (tx "From: a@b.com\nTo: c@d.com\nSubject: s\ncan you take this? contact ee@ff.gg")).to_h
      ≠ some "ee@ff.gg" := by
  refine ⟨by decide, C4_exclusion _ _ (by decide)⟩

/-- C5 (amended): relative-weekday resolution.  First part: with any
reference now that is a Wednesday (weekday 2), parser.py resolves
"next Monday at 3pm" to the Monday five days later at 15:00.  Second
part: in general, days_ahead = target - current, with 7 added regardless
of sign under a "next" qualifier and added only for a non-positive raw
difference otherwise. -/
theorem C5_weekday_resolution :
    (∀ now : DT, now.weekday = 2 →
      (ParserPy.extract_time_info now (tx "next Monday at 3pm")).original_time =
        some ⟨now.day + 5, 900⟩) ∧
    (∀ (today : DT) (wd ts : Txt) (target m : Int),
      ParserPy.weekday_lookup wd = some target → parseClock ts = some m →
      ParserPy.resolve_weekday today wd ts =
        some ⟨today.day +
          (if containsSub wd (tx "next") = true then target - today.weekday + 7
           else if target - today.weekday ≤ 0 then target - today.weekday + 7
           else target - today.weekday), m⟩) := by
  constructor
  · intro now h
    have hE : reFindIter ParserPy.dateTimeRE (tx "next Monday at 3pm") = [] := by
      decide
    have hW : reFindIter ParserPy.weekdayRE (tx "next Monday at 3pm") =
        [⟨0, 18, [(1, 0, 11), (2, 15, 18)]⟩] := by decide
    have hwm : ParserPy.weekday_of_match now (tx "next Monday at 3pm")
        ⟨0, 18, [(1, 0, 11), (2, 15, 18)]⟩ = some ⟨now.day + 5, 900⟩ := by
      have hg1 : Mtch.group ⟨0, 18, [(1, 0, 11), (2, 15, 18)]⟩
          (tx "next Monday at 3pm") 1 = some (tx "next Monday") := by decide
      have hg2 : Mtch.group ⟨0, 18, [(1, 0, 11), (2, 15, 18)]⟩
          (tx "next Monday at 3pm") 2 = some (tx "3pm") := by decide
      have hlow : lowerTx (tx "next Monday") = tx "next monday" := by decide
      have hlk : ParserPy.weekday_lookup (tx "next monday") = some 0 := by decide
      have hnxt : containsSub (tx "next monday") (tx "next") = true := by decide
      have hpc : parseClock (tx "3pm") = some 900 := by decide
      simp only [ParserPy.weekday_of_match, hg1, hg2, hlow,
        ParserPy.resolve_weekday, hlk, hnxt, if_true, parseDayClock, hpc,
        Option.map_some, h]
      norm_num
    simp only [ParserPy.extract_time_info, hE, hW, ParserPy.collect,
      List.foldl_nil, List.foldl_cons, hwm, List.nil_append]
  · intro today wd ts target m h1 h2
    simp only [ParserPy.resolve_weekday, h1, parseDayClock, h2, Option.map_some]
    by_cases hn : containsSub wd (tx "next") = true
    · simp [hn]
    · simp only [Bool.not_eq_true] at hn
      simp [hn]

/-- C5 witness: the theorem applied at now = 1970-01-07 00:00 (a
Wednesday) and, for the general formula, at the concrete Monday lookup
with clock "3pm". -/
theorem C5_weekday_resolution_witness :
    (ParserPy.extract_time_info ⟨6, 0⟩ (tx "next Monday at 3pm")).original_time =
      some ⟨11, 900⟩ ∧
    ParserPy.resolve_weekday ⟨6, 0⟩ (tx "next monday") (tx "3pm") =
      some ⟨11, 900⟩ := by
  constructor
  · have := C5_weekday_resolution.1 ⟨6, 0⟩ (by decide)
    simpa using this
  · have := C5_weekday_resolution.2 ⟨6, 0⟩ (tx "next monday") (tx "3pm") 0 900
      (by decide) (by decide)
    simpa using this

/-- C6 (amended): for every reference instant and text, the found_times
list of parser.py extract_time_info is the explicit-date matches
(resolved, in text order) followed by the weekday matches (resolved, in
text order) — grouped by pattern class; original_time is the head of
that grouped list, proposed_times its tail, and
alternative_times_suggested holds exactly when proposed_times is
non-empty. -/
theorem C6_grouped_candidates (now : DT) (text : Txt) :
    (ParserPy.extract_time_info now text).original_time =
      ((reFindIter ParserPy.dateTimeRE text).filterMap
          (ParserPy.explicit_of_match ((civilFromDays now.day).year + 1) text) ++
        (reFindIter ParserPy.weekdayRE text).filterMap
          (ParserPy.weekday_of_match now text)).head? ∧
    (ParserPy.extract_time_info now text).proposed_times =
      ((reFindIter ParserPy.dateTimeRE text).filterMap
          (ParserPy.explicit_of_match ((civilFromDays now.day).year + 1) text) ++
        (reFindIter ParserPy.weekdayRE text).filterMap
          (ParserPy.weekday_of_match now text)).tail ∧
    ((ParserPy.extract_time_info now text).alternative_times_suggested = true ↔
      (ParserPy.extract_time_info now text).proposed_times ≠ []) := by
  simp only [ParserPy.extract_time_info, collect_eq, List.nil_append]
  generalize ((reFindIter ParserPy.dateTimeRE text).filterMap
      (ParserPy.explicit_of_match ((civilFromDays now.day).year + 1) text) ++
    (reFindIter ParserPy.weekdayRE text).filterMap
      (ParserPy.weekday_of_match now text)) = L
  cases L with
  | nil => simp
  | cons f rest =>
    refine ⟨rfl, rfl, ?_⟩
    simp [List.isEmpty_iff]

/-- Thread reconciliation never changes a record's raw text. -/
theorem reconcile_step_raw (p c : Parser1.EmailRecord) :
    (Parser1.reconcile_step p c).raw_text = c.raw_text := by
  unfold Parser1.reconcile_step
  split
  · split <;> rfl
  · rfl

/-- Raw texts are preserved pointwise by the reconciliation tail loop. -/
theorem reconcile_go_raw (p : Parser1.EmailRecord) (l : List Parser1.EmailRecord) :
    (Parser1.reconcile_go p l).map Parser1.EmailRecord.raw_text =
      l.map Parser1.EmailRecord.raw_text := by
  induction l generalizing p with
  | nil => rfl
  | cons c rest ih =>
    simp [Parser1.reconcile_go, reconcile_step_raw, ih]

/-- Raw texts are preserved pointwise by the reconciliation pass. -/
theorem reconcile_raw (l : List Parser1.EmailRecord) :
    (Parser1.reconcile l).map Parser1.EmailRecord.raw_text =
      l.map Parser1.EmailRecord.raw_text := by
  cases l with
  | nil => rfl
  | cons h t => simp [Parser1.reconcile, reconcile_go_raw]

/-- parse_email stores its input text unchanged in the record. -/
theorem parse_email_raw (ctx : Parser1.Ctx) (e : Txt) :
    (Parser1.parse_email ctx e).raw_text = e := rfl

/-- C2 (amended): the record sequence returned by parse_email_thread is
the reverse of input appearance order — the record at index i carries
the raw text of the (n-1-i)-th email chunk of the input blob. -/
theorem C2_order (ctx : Parser1.Ctx) (blob : Txt) :
    (Parser1.parse_email_thread ctx blob).length =
      (Parser1.split_emails blob).length ∧
    ∀ i, i < (Parser1.split_emails blob).length →
      ((Parser1.parse_email_thread ctx blob).map Parser1.EmailRecord.raw_text).get? i
        = (Parser1.split_emails blob).get?
            ((Parser1.split_emails blob).length - 1 - i) := by
  have hmap : (Parser1.parse_email_thread ctx blob).map Parser1.EmailRecord.raw_text
      = (Parser1.split_emails blob).reverse := by
    unfold Parser1.parse_email_thread
    rw [reconcile_raw, List.map_map]
    have h1 : (Parser1.split_emails blob).reverse.map
        (Parser1.EmailRecord.raw_text ∘ Parser1.parse_email ctx)
        = (Parser1.split_emails blob).reverse.map id :=
      List.map_congr_left fun e _ => rfl
    rw [h1, List.map_id]
  constructor
  · have := congrArg List.length hmap
    simpa using this
  · intro i hi
    rw [hmap]
    rw [List.get?_eq_getElem?, List.get?_eq_getElem?]
    rw [List.getElem?_eq_getElem (by simpa using hi),
      List.getElem?_eq_getElem (by omega)]
    simp [List.getElem_reverse]

/-- C2 witness: on the concrete two-email blob, the record at index 0
carries the second-appearing email's text. -/
theorem C2_order_witness :
    (Parser1.parse_email_thread ctxW c2blob).length =
      (Parser1.split_emails c2blob).length ∧
    ((Parser1.parse_email_thread ctxW c2blob).map Parser1.EmailRecord.raw_text).get? 0
      = (Parser1.split_emails c2blob).get?
          ((Parser1.split_emails c2blob).length - 1 - 0) :=
  ⟨(C2_order ctxW c2blob).1, (C2_order ctxW c2blob).2 0 (by decide)⟩

/-- Dict assignment appends when the key is fresh. -/
theorem upsert_append (acc : List (DT × Int)) (k : DT) (v : Int)
    (h : ∀ p ∈ acc, p.1 ≠ k) :
    Parser1.upsert acc k v = acc ++ [(k, v)] := by
  induction acc with
  | nil => rfl
  | cons p r ih =>
    obtain ⟨k', v'⟩ := p
    simp only [Parser1.upsert]
    rw [if_neg (h (k', v') (List.mem_cons_self _ _))]
    rw [ih fun q hq => h q (List.mem_cons_of_mem _ hq)]
    simp

/-- With pairwise-distinct candidate instants, the score dictionary of
determine_most_probable_time is the candidate list paired with its
scores, in first-seen order. -/
theorem scored_map (g : DT → Int) (l : List DT) (acc : List (DT × Int))
    (hdisj : ∀ d ∈ l, ∀ p ∈ acc, p.1 ≠ d) (hnd : l.Nodup) :
    l.foldl (fun a dt => Parser1.upsert a dt (g dt)) acc
      = acc ++ l.map fun dt => (dt, g dt) := by
  induction l generalizing acc with
  | nil => simp
  | cons d rest ih =>
    simp only [List.foldl_cons]
    rw [upsert_append acc d (g d) fun p hp => hdisj d (List.mem_cons_self _ _) p hp]
    rw [ih (acc ++ [(d, g d)])]
    · simp
    · intro d' hd' p hp
      rcases List.mem_append.mp hp with hp | hp
      · exact hdisj d' (List.mem_cons_of_mem _ hd') p hp
      · simp only [List.mem_singleton] at hp
        subst hp
        intro he
        simp only at he
        exact (List.nodup_cons.mp hnd).1 (he ▸ hd')
    · exact (List.nodup_cons.mp hnd).2

/-- Python max never returns something smaller than its start value. -/
theorem py_max_ge (cur : DT × Int) (l : List (DT × Int)) :
    cur.2 ≤ (Parser1.py_max cur l).2 := by
  induction l generalizing cur with
  | nil => exact le_refl _
  | cons x r ih =>
    simp only [Parser1.py_max]
    by_cases h : cur.2 < x.2
    · rw [if_pos h]
      exact le_of_lt (lt_of_lt_of_le h (ih x))
    · rw [if_neg h]
      exact ih cur

/-- Python max over an ordered sequence returns the first maximum: the
returned element splits the sequence into a strictly-smaller prefix and
a no-larger suffix. -/
theorem py_max_first (hd : DT × Int) (tl : List (DT × Int)) :
    ∃ l₁ l₂, hd :: tl = l₁ ++ Parser1.py_max hd tl :: l₂ ∧
      (∀ q ∈ l₁, q.2 < (Parser1.py_max hd tl).2) ∧
      (∀ q ∈ l₂, q.2 ≤ (Parser1.py_max hd tl).2) := by
  induction tl generalizing hd with
  | nil => exact ⟨[], [], rfl, by simp, by simp⟩
  | cons x r ih =>
    simp only [Parser1.py_max]
    by_cases h : hd.2 < x.2
    · rw [if_pos h]
      rcases ih x with ⟨l₁, l₂, heq, h1, h2⟩
      refine ⟨hd :: l₁, l₂, ?_, ?_, h2⟩
      · rw [List.cons_append, ← heq]
      · intro q hq
        rcases List.mem_cons.mp hq with hq | hq
        · subst hq
          exact lt_of_lt_of_le h (py_max_ge x r)
        · exact h1 q hq
    · rw [if_neg h]
      rcases ih hd with ⟨l₁, l₂, heq, h1, h2⟩
      cases l₁ with
      | nil =>
        simp only [List.nil_append] at heq
        obtain ⟨he, ht⟩ := List.cons.inj heq
        refine ⟨[], x :: l₂, ?_, by simp, ?_⟩
        · simp [← he, ← ht]
        · intro q hq
          rcases List.mem_cons.mp hq with hq | hq
          · subst hq
            rw [← he]
            exact le_of_not_lt h
          · exact h2 q hq
      | cons a l₁' =>
        simp only [List.cons_append] at heq
        obtain ⟨he, ht⟩ := List.cons.inj heq
        refine ⟨hd :: x :: l₁', l₂, ?_, ?_, h2⟩
        · rw [List.cons_append, List.cons_append, ← ht]
        · have ha := h1 a (List.mem_cons_self _ _)
          rw [← he] at ha
          intro q hq
          rcases List.mem_cons.mp hq with hq | hq
          · subst hq
            exact ha
          · rcases List.mem_cons.mp hq with hq | hq
            · subst hq
              exact lt_of_le_of_lt (le_of_not_lt h) ha
            · exact h1 q (List.mem_cons_of_mem _ hq)

/-- C7: with at least two (pairwise distinct, all parseable) proposed
times, determine_most_probable_time returns a candidate of maximal
cumulative score, and among equal-scoring candidates the one earliest
in list order (first seen in the text): every candidate before the
returned one scores strictly less, every one after scores no more.  As
a pure function of its arguments the selection is deterministic across
repeated runs. -/
theorem C7_tie_break (orig : Option DT) (text : Txt) (proposed : List DT)
    (hlen : 2 ≤ proposed.length) (hnd : proposed.Nodup) :
    ∃ p₁ dt p₂, proposed = p₁ ++ dt :: p₂ ∧
      Parser1.determine_most_probable_time orig proposed text = some dt ∧
      (∀ d ∈ proposed, Parser1.score orig text d ≤ Parser1.score orig text dt) ∧
      (∀ d ∈ p₁, Parser1.score orig text d < Parser1.score orig text dt) ∧
      (∀ d ∈ p₂, Parser1.score orig text d ≤ Parser1.score orig text dt) := by
  obtain ⟨a, t1, rfl⟩ : ∃ a t1, proposed = a :: t1 := by
    cases proposed with
    | nil => simp at hlen
    | cons a t1 => exact ⟨a, t1, rfl⟩
  obtain ⟨b, rest, rfl⟩ : ∃ b rest, t1 = b :: rest := by
    cases t1 with
    | nil => simp at hlen
    | cons b rest => exact ⟨b, rest, rfl⟩
  have hscored : (a :: b :: rest).foldl
      (fun acc dt => Parser1.upsert acc dt (Parser1.score orig text dt))
        ([] : List (DT × Int))
      = (a :: b :: rest).map (fun dt => (dt, Parser1.score orig text dt)) := by
    simpa using scored_map (fun dt => Parser1.score orig text dt)
      (a :: b :: rest) [] (by simp) hnd
  have hdet : Parser1.determine_most_probable_time orig (a :: b :: rest) text
      = (match (a :: b :: rest).foldl
          (fun acc dt => Parser1.upsert acc dt (Parser1.score orig text dt))
            ([] : List (DT × Int)) with
         | s :: r' => some (Parser1.py_max s r').1
         | [] => if orig.isSome then orig else none) := rfl
  rw [hscored] at hdet
  simp only [List.map_cons] at hdet
  rcases py_max_first (a, Parser1.score orig text a)
      ((b, Parser1.score orig text b) ::
        rest.map fun dt => (dt, Parser1.score orig text dt))
    with ⟨l₁, l₂, heq, h1, h2⟩
  have hmap : (a :: b :: rest).map (fun dt => (dt, Parser1.score orig text dt))
      = l₁ ++ Parser1.py_max (a, Parser1.score orig text a)
          ((b, Parser1.score orig text b) ::
            rest.map fun dt => (dt, Parser1.score orig text dt)) :: l₂ := by
    simpa using heq
  rcases List.map_eq_append_iff.mp hmap with ⟨p₁, p₂', hsplit, hmap1, hmap2⟩
  rcases List.map_eq_cons_iff.mp hmap2 with ⟨dt, p₂, hsplit2, hdt, hmap3⟩
  have hm2 : (Parser1.py_max (a, Parser1.score orig text a)
      ((b, Parser1.score orig text b) ::
        rest.map fun dt => (dt, Parser1.score orig text dt))).2
      = Parser1.score orig text dt := by rw [← hdt]
  refine ⟨p₁, dt, p₂, by rw [hsplit, hsplit2], ?_, ?_, ?_, ?_⟩
  · rw [hdet, ← hdt]
  · intro d hd
    rw [hsplit, hsplit2] at hd
    rcases List.mem_append.mp hd with hd | hd
    · have : (d, Parser1.score orig text d) ∈ l₁ := by
        rw [← hmap1]
        exact List.mem_map_of_mem _ hd
      have := h1 _ this
      rw [hm2] at this
      exact le_of_lt this
    · rcases List.mem_cons.mp hd with hd | hd
      · subst hd
        exact le_refl _
      · have : (d, Parser1.score orig text d) ∈ l₂ := by
          rw [← hmap3]
          exact List.mem_map_of_mem _ hd
        have := h2 _ this
        rwa [hm2] at this
  · intro d hd
    have : (d, Parser1.score orig text d) ∈ l₁ := by
      rw [← hmap1]
      exact List.mem_map_of_mem _ hd
    have := h1 _ this
    rwa [hm2] at this
  · intro d hd
    have : (d, Parser1.score orig text d) ∈ l₂ := by
      rw [← hmap3]
      exact List.mem_map_of_mem _ hd
    have := h2 _ this
    rwa [hm2] at this

/-- C7 witness: two distinct equal-scoring candidates on a text with no
preference cues — the first-listed candidate is returned. -/
theorem C7_tie_break_witness :
    ∃ p₁ dt p₂, [DT.mk 0 60, DT.mk 1 600] = p₁ ++ dt :: p₂ ∧
      Parser1.determine_most_probable_time none [DT.mk 0 60, DT.mk 1 600] (tx "x")
        = some dt ∧
      (∀ d ∈ [DT.mk 0 60, DT.mk 1 600],
        Parser1.score none (tx "x") d ≤ Parser1.score none (tx "x") dt) ∧
      (∀ d ∈ p₁, Parser1.score none (tx "x") d < Parser1.score none (tx "x") dt) ∧
      (∀ d ∈ p₂, Parser1.score none (tx "x") d ≤ Parser1.score none (tx "x") dt) :=
  C7_tie_break none (tx "x") [DT.mk 0 60, DT.mk 1 600] (by decide) (by decide)

/-- Equality of every record field except proposed_time and
additional_info.original_time (the two fields reconciliation may set). -/
def frame_eq (r r' : Parser1.EmailRecord) : Prop :=
  r'.from_email = r.from_email ∧ r'.to_email = r.to_email ∧
  r'.subject = r.subject ∧ r'.reply_type = r.reply_type ∧
  r'.reply_type_scores = r.reply_type_scores ∧
  r'.meeting_link = r.meeting_link ∧ r'.delegate_to = r.delegate_to ∧
  r'.additional_notes = r.additional_notes ∧
  r'.processed_at = r.processed_at ∧ r'.raw_text = r.raw_text ∧
  r'.additional_info.uncertainty = r.additional_info.uncertainty ∧
  r'.additional_info.alternative_times_suggested
    = r.additional_info.alternative_times_suggested ∧
  r'.additional_info.delegate_name = r.additional_info.delegate_name ∧
  r'.additional_info.delegate_email = r.additional_info.delegate_email ∧
  r'.additional_info.proposed_times = r.additional_info.proposed_times

/-- frame_eq is reflexive. -/
theorem frame_eq_refl (r : Parser1.EmailRecord) : frame_eq r r := by
  unfold frame_eq
  exact ⟨rfl, rfl, rfl, rfl, rfl, rfl, rfl, rfl, rfl, rfl, rfl, rfl, rfl, rfl, rfl⟩

/-- Behaviour of one reconciliation step under the invariant that a
record without a proposed time also lacks an original time. -/
theorem step_spec (p c : Parser1.EmailRecord)
    (hc : c.proposed_time = none → c.additional_info.original_time = none) :
    frame_eq c (Parser1.reconcile_step p c) ∧
    (c.proposed_time.isSome → Parser1.reconcile_step p c = c) ∧
    (Parser1.reconcile_step p c ≠ c → c.proposed_time = none ∧ ∃ t,
      p.proposed_time = some t ∧
      Parser1.conf_match t c.raw_text = true ∧
      (Parser1.reconcile_step p c).proposed_time = some t ∧
      (Parser1.reconcile_step p c).additional_info.original_time = some t) := by
  by_cases hcond : (p.proposed_time.isSome && c.proposed_time.isNone) = true
  · have hnone : c.proposed_time = none := by
      rcases Bool.and_eq_true .. |>.mp hcond with ⟨_, h2⟩
      exact Option.isNone_iff_eq_none.mp h2
    obtain ⟨t0, hp⟩ : ∃ t0, p.proposed_time = some t0 := by
      rcases Bool.and_eq_true .. |>.mp hcond with ⟨h1, _⟩
      exact Option.isSome_iff_exists.mp h1
    have hai := hc hnone
    have hfind : Parser1.find_time_confirmation c.additional_info.original_time
        p.proposed_time c.raw_text
        = (if Parser1.conf_match t0 c.raw_text then some t0 else none) := by
      rw [hai, hp]
      rfl
    cases hconf : Parser1.conf_match t0 c.raw_text
    · have hstep : Parser1.reconcile_step p c = c := by
        unfold Parser1.reconcile_step
        rw [if_pos hcond, hfind, hconf]
        rfl
      rw [hstep]
      exact ⟨frame_eq_refl c, fun _ => rfl, fun hne => absurd rfl hne⟩
    · have hstep : Parser1.reconcile_step p c =
          { c with proposed_time := some t0,
                   additional_info :=
                     { c.additional_info with original_time := some t0 } } := by
        unfold Parser1.reconcile_step
        rw [if_pos hcond, hfind, hconf]
        rfl
      rw [hstep]
      refine ⟨?_, ?_, ?_⟩
      · unfold frame_eq
        exact ⟨rfl, rfl, rfl, rfl, rfl, rfl, rfl, rfl, rfl, rfl, rfl, rfl, rfl,
          rfl, rfl⟩
      · intro hsome
        rw [hnone] at hsome
        simp at hsome
      · intro _
        exact ⟨hnone, t0, hp, hconf, rfl, rfl⟩
  · have hstep : Parser1.reconcile_step p c = c := by
      unfold Parser1.reconcile_step
      rw [if_neg hcond]
    rw [hstep]
    exact ⟨frame_eq_refl c, fun _ => rfl, fun hne => absurd rfl hne⟩

/-- The reconciliation tail loop preserves length. -/
theorem reconcile_go_length (p : Parser1.EmailRecord)
    (l : List Parser1.EmailRecord) :
    (Parser1.reconcile_go p l).length = l.length := by
  induction l generalizing p with
  | nil => rfl
  | cons c rest ih => simp [Parser1.reconcile_go, ih]

/-- Frame behaviour of the reconciliation tail loop: each output record
agrees with its input outside the two reconciliation fields; records
with a proposed time pass through unchanged; a changed record had no
proposed time, its raw text matches a confirmation of some instant t,
both reconciliation fields are set to t, and its predecessor in the
pass (the given p for index 0, the previous output record otherwise)
has proposed time t. -/
theorem go_spec (p : Parser1.EmailRecord) (l : List Parser1.EmailRecord)
    (hinv : ∀ r ∈ l, r.proposed_time = none →
      r.additional_info.original_time = none) :
    ∀ i c c', l.get? i = some c →
      (Parser1.reconcile_go p l).get? i = some c' →
      frame_eq c c' ∧
      (c.proposed_time.isSome → c' = c) ∧
      (c' ≠ c → c.proposed_time = none ∧ ∃ t,
        Parser1.conf_match t c.raw_text = true ∧
        c'.proposed_time = some t ∧
        c'.additional_info.original_time = some t ∧
        (i = 0 → p.proposed_time = some t) ∧
        (∀ j pr, i = j + 1 → (Parser1.reconcile_go p l).get? j = some pr →
          pr.proposed_time = some t)) := by
  induction l generalizing p with
  | nil => intro i c c' h1 _; simp at h1
  | cons c0 rest ih =>
    intro i c c' h1 h2
    simp only [Parser1.reconcile_go] at h2
    cases i with
    | zero =>
      simp only [List.get?_cons_zero, Option.some.injEq] at h1 h2
      rw [← h1, ← h2]
      rcases step_spec p c0 (hinv c0 (List.mem_cons_self _ _)) with ⟨hf, hu, hm⟩
      refine ⟨hf, hu, fun hne => ?_⟩
      rcases hm hne with ⟨hn, t, hp, hcf, hpt, hot⟩
      refine ⟨hn, t, hcf, hpt, hot, fun _ => hp, ?_⟩
      intro j pr hj
      exact absurd hj (by omega)
    | succ n =>
      simp only [List.get?_cons_succ] at h1 h2
      have hrest : ∀ r ∈ rest, r.proposed_time = none →
          r.additional_info.original_time = none :=
        fun r hr => hinv r (List.mem_cons_of_mem _ hr)
      rcases ih (Parser1.reconcile_step p c0) hrest n c c' h1 h2
        with ⟨hf, hu, hm⟩
      refine ⟨hf, hu, fun hne => ?_⟩
      rcases hm hne with ⟨hn, t, hcf, hpt, hot, hz, hs⟩
      refine ⟨hn, t, hcf, hpt, hot, fun h0 => by simp at h0, ?_⟩
      intro j pr hj hpr
      have hjn : j = n := by omega
      rw [hjn] at hpr
      simp only [Parser1.reconcile_go] at hpr
      cases n with
      | zero =>
        simp only [List.get?_cons_zero, Option.some.injEq] at hpr
        rw [← hpr]
        exact hz rfl
      | succ m =>
        simp only [List.get?_cons_succ] at hpr
        exact hs m pr rfl hpr

/-- C8: thread reconciliation modifies a record only when that record
lacks a proposed time, the immediately preceding (already reconciled)
record has one, and the record's raw text matches a confirmation of it;
even then only proposed_time and additional_info.original_time change
(both set to the preceding proposed time), and every other field of
every record — and every field of records that already carry a proposed
time — is left unchanged.  The hypothesis (no proposed time implies no
original time) holds for every record parse_email produces. -/
theorem C8_reconcile_frame (recs : List Parser1.EmailRecord)
    (hinv : ∀ r ∈ recs, r.proposed_time = none →
      r.additional_info.original_time = none) :
    (Parser1.reconcile recs).length = recs.length ∧
    ∀ i c c', recs.get? i = some c →
      (Parser1.reconcile recs).get? i = some c' →
      frame_eq c c' ∧
      (c.proposed_time.isSome → c' = c) ∧
      (c' ≠ c → c.proposed_time = none ∧ 0 < i ∧ ∃ t,
        Parser1.conf_match t c.raw_text = true ∧
        c'.proposed_time = some t ∧
        c'.additional_info.original_time = some t ∧
        ∀ pr, (Parser1.reconcile recs).get? (i - 1) = some pr →
          pr.proposed_time = some t) := by
  cases recs with
  | nil =>
    refine ⟨rfl, ?_⟩
    intro i c c' h1 _
    simp at h1
  | cons h t =>
    constructor
    · simp [Parser1.reconcile, reconcile_go_length]
    · intro i c c' h1 h2
      simp only [Parser1.reconcile] at h2
      cases i with
      | zero =>
        simp only [List.get?_cons_zero, Option.some.injEq] at h1 h2
        rw [← h1, ← h2]
        exact ⟨frame_eq_refl h, fun _ => rfl, fun hne => absurd rfl hne⟩
      | succ n =>
        simp only [List.get?_cons_succ] at h1 h2
        have htail : ∀ r ∈ t, r.proposed_time = none →
            r.additional_info.original_time = none :=
          fun r hr => hinv r (List.mem_cons_of_mem _ hr)
        rcases go_spec h t htail n c c' h1 h2 with ⟨hf, hu, hm⟩
        refine ⟨hf, hu, fun hne => ?_⟩
        rcases hm hne with ⟨hn, tt, hcf, hpt, hot, hz, hs⟩
        refine ⟨hn, Nat.succ_pos n, tt, hcf, hpt, hot, ?_⟩
        intro pr hpr
        simp only [Nat.add_sub_cancel] at hpr
        rw [Parser1.reconcile] at hpr
        cases n with
        | zero =>
          simp only [List.get?_cons_zero, Option.some.injEq] at hpr
          rw [← hpr]
          exact hz rfl
        | succ m =>
          simp only [List.get?_cons_succ] at hpr
          exact hs m pr rfl hpr

/-- Dict assignment never empties the association list. -/
theorem upsert_ne_nil (l : List (DT × Int)) (k : DT) (v : Int) :
    Parser1.upsert l k v ≠ [] := by
  cases l with
  | nil => simp [Parser1.upsert]
  | cons p r =>
    obtain ⟨k', v'⟩ := p
    simp only [Parser1.upsert]
    split <;> simp

/-- Folding dict assignments over a non-empty accumulator keeps it
non-empty. -/
theorem foldl_upsert_ne_nil (g : DT → Int) (l : List DT)
    (acc : List (DT × Int)) (h : acc ≠ []) :
    l.foldl (fun a dt => Parser1.upsert a dt (g dt)) acc ≠ [] := by
  induction l generalizing acc with
  | nil => exact h
  | cons d rest ih =>
    simp only [List.foldl_cons]
    exact ih _ (upsert_ne_nil _ _ _)

/-- When an original time exists, determine_most_probable_time always
returns some instant (so a record without a proposed time also has no
original time — the invariant the reconciliation frame theorem
assumes). -/
theorem determine_isSome_of_orig (o : DT) (props : List DT) (text : Txt) :
    (Parser1.determine_most_probable_time (some o) props text).isSome := by
  cases props with
  | nil => simp [Parser1.determine_most_probable_time]
  | cons a t =>
    cases t with
    | nil => simp [Parser1.determine_most_probable_time]
    | cons b r =>
      have hne : (a :: b :: r).foldl
          (fun acc dt => Parser1.upsert acc dt (Parser1.score (some o) text dt))
            ([] : List (DT × Int)) ≠ [] := by
        simp only [List.foldl_cons]
        exact foldl_upsert_ne_nil _ (b :: r) _ (upsert_ne_nil [] a _)
      have hdet : Parser1.determine_most_probable_time (some o) (a :: b :: r) text
          = (match (a :: b :: r).foldl
              (fun acc dt => Parser1.upsert acc dt
                (Parser1.score (some o) text dt)) ([] : List (DT × Int)) with
             | s :: r' => some (Parser1.py_max s r').1
             | [] => if (some o : Option DT).isSome then some o else none) := rfl
      rcases hs : (a :: b :: r).foldl
          (fun acc dt => Parser1.upsert acc dt (Parser1.score (some o) text dt))
            ([] : List (DT × Int)) with _ | ⟨s, r'⟩
      · exact absurd hs hne
      · rw [hdet, hs]
        simp

/-- Every record parse_email produces satisfies the reconciliation
invariant: no proposed time implies no original time. -/
theorem parse_email_inv (ctx : Parser1.Ctx) (e : Txt) :
    (Parser1.parse_email ctx e).proposed_time = none →
    (Parser1.parse_email ctx e).additional_info.original_time = none := by
  intro h
  have hai : (Parser1.parse_email ctx e).additional_info
      = Parser1.extract_time_info ctx.now e := rfl
  have hpt : (Parser1.parse_email ctx e).proposed_time
      = Parser1.determine_most_probable_time
          (Parser1.extract_time_info ctx.now e).original_time
          (Parser1.extract_time_info ctx.now e).proposed_times e := rfl
  rw [hpt] at h
  rw [hai]
  cases ho : (Parser1.extract_time_info ctx.now e).original_time with
  | none => rfl
  | some o =>
    rw [ho] at h
    have := determine_isSome_of_orig o
      (Parser1.extract_time_info ctx.now e).proposed_times e
    rw [h] at this
    simp at this

/-- Concrete reconciled-thread records for the C8 witness: a proposing
record (Friday 14:00, day 8 = 1970-01-09) followed by a bare
confirmation record. -/
def c8rec1 : Parser1.EmailRecord :=
  ⟨some "a@a.a", some "b@b.b", some "m", "unknown", [], some ⟨8, 840⟩, none,
   none, ⟨false, false, none, none, some ⟨8, 840⟩, []⟩, none, "t",
   tx "Friday at 2pm"⟩

/-- Confirmation record without a proposed time (raw text "confirmed"). -/
def c8rec2 : Parser1.EmailRecord :=
  ⟨some "b@b.b", some "a@a.a", some "r", "unknown", [], none, none, none,
   ⟨false, false, none, none, none, []⟩, none, "t", tx "confirmed"⟩

/-- The record c8rec2 after reconciliation against c8rec1. -/
def c8rec2upd : Parser1.EmailRecord :=
  ⟨some "b@b.b", some "a@a.a", some "r", "unknown", [], some ⟨8, 840⟩, none,
   none, ⟨false, false, none, none, some ⟨8, 840⟩, []⟩, none, "t",
   tx "confirmed"⟩

/-- C8 witness: the frame theorem applied to the concrete two-record
thread, with its invariant and indexing hypotheses discharged. -/
theorem C8_reconcile_frame_witness :
    (Parser1.reconcile [c8rec1, c8rec2]).length = [c8rec1, c8rec2].length ∧
    frame_eq c8rec2 c8rec2upd :=
  ⟨(C8_reconcile_frame [c8rec1, c8rec2] (by decide)).1,
   ((C8_reconcile_frame [c8rec1, c8rec2] (by decide)).2 1 c8rec2 c8rec2upd
     (by decide) (by decide)).1⟩

section SplitterLemmas

/-- Every text starts with the empty pattern. -/
theorem startsWith_nil_pat (t : Txt) : startsWith t [] = true := by
  cases t <;> rfl

/-- Every text contains the empty pattern. -/
theorem containsSub_nil_pat (t : Txt) : containsSub t [] = true := by
  cases t <;> rfl

/-- Splitting at a newline separates the newline-free part before it. -/
theorem splitLines_append_nl (a b : Txt) (ha : '\n' ∉ a) :
    splitLines (a ++ '\n' :: b) = a :: splitLines b := by
  induction a with
  | nil => simp [splitLines]
  | cons c a' ih =>
    have hc : c ≠ '\n' := fun h => ha (h ▸ List.mem_cons_self _ _)
    have ha' : '\n' ∉ a' := fun h => ha (List.mem_cons_of_mem _ h)
    simp only [List.cons_append, splitLines, if_neg hc, List.append_eq, ih ha']

/-- A newline-free text splits into the single line it is. -/
theorem splitLines_no_nl (l : Txt) (h : '\n' ∉ l) : splitLines l = [l] := by
  induction l with
  | nil => rfl
  | cons c l' ih =>
    have hc : c ≠ '\n' := fun hh => h (hh ▸ List.mem_cons_self _ _)
    have h' : '\n' ∉ l' := fun hh => h (List.mem_cons_of_mem _ hh)
    simp only [splitLines, ih h', if_neg hc]

/-- splitLines inverts joinLines on non-empty lists of newline-free
lines. -/
theorem splitLines_joinLines (ls : List Txt) (hne : ls ≠ [])
    (h : ∀ l ∈ ls, '\n' ∉ l) : splitLines (joinLines ls) = ls := by
  induction ls with
  | nil => exact absurd rfl hne
  | cons l rest ih =>
    cases rest with
    | nil => exact splitLines_no_nl l (h l (List.mem_cons_self _ _))
    | cons l₂ rest' =>
      have hjoin : joinLines (l :: l₂ :: rest') = l ++ '\n' :: joinLines (l₂ :: rest') := rfl
      rw [hjoin, splitLines_append_nl l _ (h l (List.mem_cons_self _ _))]
      rw [ih (by simp) fun x hx => h x (List.mem_cons_of_mem _ hx)]

/-- joinLines of a list with a non-empty tail. -/
theorem joinLines_cons_of_ne (l : Txt) (ls : List Txt) (h : ls ≠ []) :
    joinLines (l :: ls) = l ++ '\n' :: joinLines ls := by
  cases ls with
  | nil => exact absurd rfl h
  | cons a b => rfl

/-- A text starts with itself extended by anything. -/
theorem startsWith_append_self (p r : Txt) : startsWith (p ++ r) p = true := by
  induction p with
  | nil => exact startsWith_nil_pat r
  | cons c p' ih => simp [startsWith, ih]

/-- startsWith is preserved by mapping a character function. -/
theorem startsWith_map (f : Char → Char) (t p : Txt)
    (h : startsWith t p = true) :
    startsWith (t.map f) (p.map f) = true := by
  induction p generalizing t with
  | nil => simp [startsWith_nil_pat]
  | cons q ps ih =>
    cases t with
    | nil => simp [startsWith] at h
    | cons c t' =>
      simp only [startsWith, Bool.and_eq_true, decide_eq_true_eq] at h
      simp only [List.map_cons, startsWith, Bool.and_eq_true, decide_eq_true_eq]
      exact ⟨by rw [h.1], ih t' h.2⟩

/-- Every character of a matched prefix occurs in the text. -/
theorem startsWith_mem (t p : Txt) (h : startsWith t p = true) :
    ∀ c ∈ p, c ∈ t := by
  induction p generalizing t with
  | nil => intro c hc; simp at hc
  | cons q ps ih =>
    cases t with
    | nil => simp [startsWith] at h
    | cons a t' =>
      simp only [startsWith, Bool.and_eq_true, decide_eq_true_eq] at h
      intro c hc
      rcases List.mem_cons.mp hc with hc | hc
      · exact hc ▸ h.1 ▸ List.mem_cons_self _ _
      · exact List.mem_cons_of_mem _ (ih t' h.2 c hc)

/-- Unfolding equation for containsSub. -/
theorem containsSub_cons (c : Char) (t p : Txt) :
    containsSub (c :: t) p = (startsWith (c :: t) p || containsSub t p) := by
  rw [containsSub]
  cases h : startsWith (c :: t) p <;> simp [h]

/-- A prefix match is an occurrence. -/
theorem containsSub_of_startsWith (t p : Txt) (h : startsWith t p = true) :
    containsSub t p = true := by
  rw [containsSub.eq_def]
  simp [h]

/-- Every character of an occurring substring occurs in the text. -/
theorem containsSub_mem (t p : Txt) (h : containsSub t p = true) :
    ∀ c ∈ p, c ∈ t := by
  induction t with
  | nil =>
    cases p with
    | nil => intro c hc; simp at hc
    | cons q ps =>
      rw [show containsSub [] (q :: ps) = false from rfl] at h
      simp at h
  | cons a t' ih =>
    rw [containsSub_cons] at h
    rcases Bool.or_eq_true .. |>.mp h with h | h
    · exact startsWith_mem _ _ h
    · exact fun c hc => List.mem_cons_of_mem _ (ih h c hc)

/-- A text without colons contains no occurrence of "From:". -/
theorem no_colon_no_from (t : Txt) (h : ∀ c ∈ t, c ≠ ':') :
    containsSub t (tx "From:") = false := by
  cases hc : containsSub t (tx "From:")
  · rfl
  · have : (':' : Char) ∈ t :=
      containsSub_mem t _ hc ':' (by decide)
    exact absurd rfl (h ':' this)

/-- Matching across an embedded newline forces a match before it, for
newline-free patterns. -/
theorem startsWith_append_nl (p : Txt) (hp : '\n' ∉ p) :
    ∀ (a b : Txt), startsWith (a ++ '\n' :: b) p = true → startsWith a p = true := by
  induction p with
  | nil => intro a b _; exact startsWith_nil_pat a
  | cons q ps ih =>
    intro a b h
    cases a with
    | nil =>
      simp only [List.nil_append, startsWith, Bool.and_eq_true,
        decide_eq_true_eq] at h
      exact absurd (h.1 ▸ List.mem_cons_self _ _) hp
    | cons c a' =>
      simp only [List.cons_append, startsWith, Bool.and_eq_true,
        decide_eq_true_eq] at h
      simp only [startsWith, Bool.and_eq_true, decide_eq_true_eq]
      exact ⟨h.1, ih (fun hm => hp (List.mem_cons_of_mem _ hm)) a' b h.2⟩

/-- An occurrence of a non-empty newline-free pattern in a text split
by a newline lies entirely on one side. -/
theorem containsSub_append_nl (p : Txt) (hp : '\n' ∉ p) (hne : p ≠ []) :
    ∀ (a b : Txt), containsSub (a ++ '\n' :: b) p = true →
      containsSub a p = true ∨ containsSub b p = true := by
  intro a
  induction a with
  | nil =>
    intro b h
    simp only [List.nil_append] at h
    rw [containsSub_cons] at h
    rcases Bool.or_eq_true .. |>.mp h with h | h
    · obtain ⟨q, ps, rfl⟩ : ∃ q ps, p = q :: ps := by
        cases p with
        | nil => exact absurd rfl hne
        | cons q ps => exact ⟨q, ps, rfl⟩
      simp only [startsWith, Bool.and_eq_true, decide_eq_true_eq] at h
      exact absurd (h.1 ▸ List.mem_cons_self _ _) hp
    · exact Or.inr h
  | cons c a' ih =>
    intro b h
    simp only [List.cons_append] at h
    rw [containsSub_cons] at h
    rcases Bool.or_eq_true .. |>.mp h with h | h
    · have := startsWith_append_nl p hp (c :: a') b (by simpa using h)
      exact Or.inl (containsSub_of_startsWith _ _ this)
    · rcases ih b h with h | h
      · left
        rw [containsSub_cons, h]
        simp
      · exact Or.inr h

/-- No occurrence in any line, none in the join (for non-empty
newline-free patterns). -/
theorem containsSub_joinLines (p : Txt) (hp : '\n' ∉ p) (hne : p ≠ [])
    (ls : List Txt) (h : ∀ l ∈ ls, containsSub l p = false) :
    containsSub (joinLines ls) p = false := by
  induction ls with
  | nil =>
    obtain ⟨q, ps, rfl⟩ : ∃ q ps, p = q :: ps := by
      cases p with
      | nil => exact absurd rfl hne
      | cons q ps => exact ⟨q, ps, rfl⟩
    rw [joinLines, containsSub]
    simp [startsWith]
  | cons l rest ih =>
    cases rest with
    | nil => exact h l (List.mem_cons_self _ _)
    | cons l₂ rest' =>
      rw [joinLines_cons_of_ne l _ (by simp)]
      cases hc : containsSub (l ++ '\n' :: joinLines (l₂ :: rest')) p
      · rfl
      · rcases containsSub_append_nl p hp hne l _ hc with hcl | hcr
        · rw [h l (List.mem_cons_self _ _)] at hcl
          simp at hcl
        · rw [ih fun x hx => h x (List.mem_cons_of_mem _ hx)] at hcr
          simp at hcr

/-- Case-lowering preserves occurrences. -/
theorem containsSub_map_lower (t p : Txt) (h : containsSub t p = true) :
    containsSub (lowerTx t) (lowerTx p) = true := by
  induction t with
  | nil =>
    cases p with
    | nil => exact containsSub_nil_pat _
    | cons q ps =>
      rw [show containsSub [] (q :: ps) = false from rfl] at h
      simp at h
  | cons c t' ih =>
    rw [containsSub_cons] at h
    rcases Bool.or_eq_true .. |>.mp h with h | h
    · exact containsSub_of_startsWith _ _ (startsWith_map lowerCh _ _ h)
    · have := ih h
      simp only [lowerTx, List.map_cons]
      rw [containsSub_cons]
      simp only [lowerTx] at this
      rw [this]
      simp

/-- Occurrences extend to the right. -/
theorem startsWith_extend (s v p : Txt) (h : startsWith s p = true) :
    startsWith (s ++ v) p = true := by
  induction p generalizing s with
  | nil => exact startsWith_nil_pat _
  | cons q ps ih =>
    cases s with
    | nil => simp [startsWith] at h
    | cons c s' =>
      simp only [startsWith, Bool.and_eq_true, decide_eq_true_eq] at h
      simp only [List.cons_append, startsWith, Bool.and_eq_true,
        decide_eq_true_eq]
      exact ⟨h.1, ih s' h.2⟩

/-- Occurrences extend to the left. -/
theorem containsSub_append_right (u w p : Txt) (h : containsSub w p = true) :
    containsSub (u ++ w) p = true := by
  induction u with
  | nil => exact h
  | cons c u' ih =>
    simp only [List.cons_append]
    rw [containsSub_cons, ih]
    simp

/-- An occurrence inside an infix segment is an occurrence in the whole
text. -/
theorem containsSub_of_infix (u s v p : Txt) (h : containsSub s p = true) :
    containsSub (u ++ s ++ v) p = true := by
  have h1 : containsSub (s ++ v) p = true := by
    induction s with
    | nil =>
      cases p with
      | nil => exact containsSub_nil_pat v
      | cons q ps =>
        rw [show containsSub [] (q :: ps) = false from rfl] at h
        simp at h
    | cons c s' ih =>
      rw [containsSub_cons] at h
      rcases Bool.or_eq_true .. |>.mp h with h | h
      · exact containsSub_of_startsWith _ _ (startsWith_extend _ v _ h)
      · simp only [List.cons_append]
        rw [containsSub_cons, ih h]
        simp
  rw [List.append_assoc]
  exact containsSub_append_right u _ _ h1

end SplitterLemmas

section SplitterLemmas2

/-- Header-address characters are never whitespace. -/
theorem addrC_not_ws (c : Char) (h : addrC c = true) : isWS c = false := by
  cases hw : isWS c
  · rfl
  · exfalso
    simp only [isWS, decide_eq_true_eq] at hw
    rcases hw with rfl | rfl | rfl | rfl | rfl | rfl <;> exact absurd h (by decide)

/-- Header-address characters are never colons. -/
theorem addrC_ne_colon (c : Char) (h : addrC c = true) : c ≠ ':' := by
  intro he
  subst he
  exact absurd h (by decide)

/-- Header-address characters are never curly quotes. -/
theorem addrC_not_curly (c : Char) (h : addrC c = true) :
    c ≠ '‘' ∧ c ≠ '’' ∧ c ≠ '“' ∧ c ≠ '”' := by
  refine ⟨?_, ?_, ?_, ?_⟩ <;> intro he <;> subst he <;> exact absurd h (by decide)

/-- Stripping changes nothing when both ends are non-whitespace. -/
theorem stripTx_eq_self (l : Txt)
    (hh : ∀ c, l.head? = some c → isWS c = false)
    (hl : ∀ c, l.getLast? = some c → isWS c = false) :
    stripTx l = l := by
  have h1 : l.dropWhile isWS = l := by
    cases l with
    | nil => rfl
    | cons c r =>
      have := hh c rfl
      simp [List.dropWhile_cons, this]
  rw [stripTx, h1]
  have h2 : l.reverse.dropWhile isWS = l.reverse := by
    cases hr : l.reverse with
    | nil => simp
    | cons c r =>
      have hc : l.getLast? = some c := by
        rw [← List.head?_reverse, hr]
        rfl
      have := hl c hc
      simp [List.dropWhile_cons, this]
  rw [h2, List.reverse_reverse]

/-- The stripped text is an infix segment of the original. -/
theorem strip_infix (l : Txt) : ∃ u v, l = u ++ stripTx l ++ v := by
  obtain ⟨u, hu⟩ := (List.dropWhile_suffix (l := l) isWS)
  obtain ⟨w, hw⟩ := (List.dropWhile_suffix (l := (l.dropWhile isWS).reverse) isWS)
  have h2 := congrArg List.reverse hw
  rw [List.reverse_append, List.reverse_reverse] at h2
  refine ⟨u, w.reverse, ?_⟩
  rw [stripTx, List.append_assoc, h2, hu]

/-- A boundary match on the stripped line forces a case-insensitive
from: occurrence in the original line. -/
theorem boundary_containsCI (l : Txt)
    (h : ParserPy.boundary_match (stripTx l) = true) :
    containsSubCI l (tx "from:") = true := by
  have hsw : startsWithCI (stripTx l) (tx "from:") = true := by
    cases hs : startsWithCI (stripTx l) (tx "from:")
    · rw [ParserPy.boundary_match.eq_def, hs] at h
      simp at h
    · rfl
  obtain ⟨u, v, hl⟩ := strip_infix l
  unfold containsSubCI
  unfold startsWithCI at hsw
  have hlow : lowerTx (tx "from:") = tx "from:" := by decide
  rw [hlow] at hsw
  have hocc : containsSub (lowerTx (stripTx l)) (tx "from:") = true :=
    containsSub_of_startsWith _ _ hsw
  rw [hlow]
  rw [hl]
  unfold lowerTx
  rw [List.map_append, List.map_append]
  exact containsSub_of_infix _ _ _ _ hocc

/-- The whole pattern-initial characters of the three header prefixes
differ, so the startsWithCI tests are pairwise exclusive. -/
theorem swci_disjoint (l : Txt) (a b : Char) (p q : Txt)
    (hab : lowerCh a ≠ lowerCh b)
    (h : startsWithCI l (a :: p) = true) :
    startsWithCI l (b :: q) = false := by
  unfold startsWithCI lowerTx at h ⊢
  simp only [List.map_cons] at h ⊢
  cases hm : l.map lowerCh with
  | nil => rw [hm] at h; simp [startsWith] at h
  | cons c r =>
    rw [hm] at h
    simp only [startsWith, Bool.and_eq_true, decide_eq_true_eq] at h
    have hcb : decide (c = lowerCh b) = false := by
      simp only [decide_eq_false_iff_not]
      intro hcb
      exact hab (by rw [← h.1, hcb])
    simp only [startsWith, hcb, Bool.false_and]

/-- takeWhile stops exactly at the first failing element. -/
theorem takeWhile_all_then (p : Char → Bool) (l : Txt) (x : Char) (r : Txt)
    (hall : ∀ c ∈ l, p c = true) (hx : p x = false) :
    (l ++ x :: r).takeWhile p = l := by
  induction l with
  | nil => simp [List.takeWhile_cons, hx]
  | cons c l' ih =>
    have hc := hall c (List.mem_cons_self _ _)
    simp only [List.cons_append, List.takeWhile_cons, hc, if_true]
    rw [ih fun d hd => hall d (List.mem_cons_of_mem _ hd)]

/-- takeWhile keeps everything when every element passes. -/
theorem takeWhile_all (p : Char → Bool) (l : Txt)
    (hall : ∀ c ∈ l, p c = true) : l.takeWhile p = l := by
  induction l with
  | nil => rfl
  | cons c l' ih =>
    have hc := hall c (List.mem_cons_self _ _)
    simp only [List.takeWhile_cons, hc, if_true]
    rw [ih fun d hd => hall d (List.mem_cons_of_mem _ hd)]

/-- The boundary pattern accepts a From: header line built from
address-class characters. -/
theorem boundary_header (lcl dom : Txt)
    (hl1 : lcl ≠ []) (hl2 : ∀ c ∈ lcl, addrC c = true)
    (hd1 : dom ≠ []) (hd2 : ∀ c ∈ dom, addrC c = true) :
    ParserPy.boundary_match (tx "From: " ++ lcl ++ '@' :: dom) = true := by
  obtain ⟨c0, lcl', rfl⟩ : ∃ c0 lcl', lcl = c0 :: lcl' := by
    cases lcl with
    | nil => exact absurd rfl hl1
    | cons c0 lcl' => exact ⟨c0, lcl', rfl⟩
  have hswci : startsWithCI (tx "From: " ++ (c0 :: lcl') ++ '@' :: dom)
      (tx "from:") = true := by
    unfold startsWithCI lowerTx
    rw [List.append_assoc, List.map_append]
    rw [show (tx "From: ").map lowerCh = tx "from:" ++ [' '] from by decide]
    rw [show (tx "from:").map lowerCh = tx "from:" from by decide]
    rw [List.append_assoc]
    exact startsWith_append_self _ _
  unfold ParserPy.boundary_match
  rw [hswci]
  simp only [if_true]
  have hdrop : (tx "From: " ++ (c0 :: lcl') ++ '@' :: dom).drop 5
      = ' ' :: ((c0 :: lcl') ++ '@' :: dom) := by
    rw [List.append_assoc]
    rw [List.drop_append_of_le_length (by decide)]
    rw [show (tx "From: ").drop 5 = [' '] from by decide]
    rfl
  rw [hdrop]
  have hc0 := hl2 c0 (List.mem_cons_self _ _)
  have hdw : (' ' :: ((c0 :: lcl') ++ '@' :: dom)).dropWhile isWS
      = (c0 :: lcl') ++ '@' :: dom := by
    rw [List.dropWhile_cons, if_pos (by decide)]
    rw [List.cons_append, List.dropWhile_cons]
    rw [if_neg (by simp [addrC_not_ws c0 hc0])]
  rw [hdw]
  have htw : ((c0 :: lcl') ++ '@' :: dom).takeWhile addrC = c0 :: lcl' :=
    takeWhile_all_then addrC (c0 :: lcl') '@' dom hl2 (by decide)
  rw [htw]
  rw [show ((c0 :: lcl') ++ '@' :: dom).drop (c0 :: lcl').length = '@' :: dom
    from List.drop_left _ _]
  show (decide (¬(c0 :: lcl').isEmpty = true ∧
      ¬(List.takeWhile addrC dom).isEmpty = true ∧
      (List.dropWhile isWS
        (List.drop (List.takeWhile addrC dom).length dom)).isEmpty = true)) = true
  rw [takeWhile_all addrC dom hd2, List.drop_length]
  simp [List.isEmpty_iff, hd1]

/-- The split loop after the boundary line: lines that never match the
boundary are all appended to the current chunk. -/
theorem splitLoop_no_boundary (ls : List Txt) (emails cur : List Txt)
    (h : ∀ l ∈ ls, ParserPy.boundary_match (stripTx l) = false) :
    ParserPy.splitLoop ls emails cur true = (emails, cur ++ ls) := by
  induction ls generalizing cur with
  | nil => simp [ParserPy.splitLoop]
  | cons l ls' ih =>
    have hl := h l (List.mem_cons_self _ _)
    simp only [ParserPy.splitLoop, hl, Bool.false_eq_true, if_false, if_true]
    rw [ih (cur ++ [l]) fun x hx => h x (List.mem_cons_of_mem _ hx)]
    simp

/-- Characterisation of the header-scan fold of validate_email_chunk:
each flag records whether some line carries its prefix (the three
prefixes are mutually exclusive on any single line). -/
theorem validate_fold_spec (ls : List Txt) (acc : Bool × Bool × Bool) :
    ls.foldl (fun (acc : Bool × Bool × Bool) l =>
      if startsWithCI l (tx "from:") then (true, acc.2.1, acc.2.2)
      else if startsWithCI l (tx "to:") then (acc.1, true, acc.2.2)
      else if startsWithCI l (tx "subject:") then (acc.1, acc.2.1, true)
      else acc) acc
    = (acc.1 || ls.any (startsWithCI · (tx "from:")),
       acc.2.1 || ls.any (startsWithCI · (tx "to:")),
       acc.2.2 || ls.any (startsWithCI · (tx "subject:"))) := by
  induction ls generalizing acc with
  | nil => simp
  | cons l ls' ih =>
    simp only [List.foldl_cons, List.any_cons]
    by_cases h1 : startsWithCI l (tx "from:") = true
    · have h2 : startsWithCI l (tx "to:") = false :=
        swci_disjoint l 'f' 't' _ _ (by decide)
          (by rw [show tx "from:" = 'f' :: tx "rom:" from rfl] at h1; exact h1)
      have h3 : startsWithCI l (tx "subject:") = false :=
        swci_disjoint l 'f' 's' _ _ (by decide)
          (by rw [show tx "from:" = 'f' :: tx "rom:" from rfl] at h1; exact h1)
      rw [h1]
      simp only [if_true, ih]
      simp [h1, h2, h3]
    · rw [Bool.not_eq_true] at h1
      by_cases h2 : startsWithCI l (tx "to:") = true
      · have h3 : startsWithCI l (tx "subject:") = false :=
          swci_disjoint l 't' 's' _ _ (by decide)
            (by rw [show tx "to:" = 't' :: tx "o:" from rfl] at h2; exact h2)
        rw [h1, h2]
        simp only [Bool.false_eq_true, if_false, if_true, ih]
        simp [h1, h2, h3]
      · rw [Bool.not_eq_true] at h2
        by_cases h3 : startsWithCI l (tx "subject:") = true
        · rw [h1, h2, h3]
          simp only [Bool.false_eq_true, if_false, if_true, ih]
          simp [h1, h2, h3]
        · rw [Bool.not_eq_true] at h3
          rw [h1, h2, h3]
          simp only [Bool.false_eq_true, if_false, ih]
          simp [h1, h2, h3]

/-- validate_email_chunk succeeds when the three header prefixes all
occur in the first ten lines. -/
theorem validate_of_found (lines : List Txt)
    (h1 : ∃ l ∈ lines.take 10, startsWithCI l (tx "from:") = true)
    (h2 : ∃ l ∈ lines.take 10, startsWithCI l (tx "to:") = true)
    (h3 : ∃ l ∈ lines.take 10, startsWithCI l (tx "subject:") = true) :
    ParserPy.validate_email_chunk lines = true := by
  unfold ParserPy.validate_email_chunk
  rw [validate_fold_spec]
  simp only [Bool.false_or]
  rw [List.any_eq_true.mpr h1, List.any_eq_true.mpr h2, List.any_eq_true.mpr h3]
  rfl

end SplitterLemmas2

section SplitterLemmas3

/-- Unfolding equation for occurrence positions at a cons. -/
theorem subPositionsFrom_cons (c : Char) (t p : Txt) (i : Nat) :
    subPositionsFrom (c :: t) p i =
      if startsWith (c :: t) p then i :: subPositionsFrom t p (i + 1)
      else subPositionsFrom t p (i + 1) := rfl

/-- No occurrence, no positions. -/
theorem subPositionsFrom_nil_of_not_contains (t p : Txt)
    (h : containsSub t p = false) :
    ∀ i, subPositionsFrom t p i = [] := by
  induction t with
  | nil =>
    intro i
    cases p with
    | nil =>
      rw [containsSub_nil_pat] at h
      simp at h
    | cons q ps => rfl
  | cons c r ih =>
    intro i
    rw [containsSub_cons] at h
    rcases Bool.or_eq_false_iff.mp h with ⟨h1, h2⟩
    rw [subPositionsFrom_cons, h1]
    simp only [Bool.false_eq_true, if_false]
    exact ih h2 (i + 1)

/-- getLast? of a join is getLast? of the (non-empty) last line. -/
theorem getLast_joinLines (ls : List Txt) (lst : Txt)
    (h : ls.getLast? = some lst) (hne : lst ≠ []) :
    (joinLines ls).getLast? = lst.getLast? := by
  induction ls with
  | nil => simp at h
  | cons l rest ih =>
    cases rest with
    | nil =>
      simp only [List.getLast?_singleton, Option.some.injEq] at h
      rw [← h]
      rfl
    | cons l₂ rest' =>
      have h' : (l₂ :: rest').getLast? = some lst := by
        rwa [List.getLast?_cons_cons] at h
      rw [joinLines_cons_of_ne l _ (by simp)]
      rw [List.getLast?_append]
      have hJ : ('\n' :: joinLines (l₂ :: rest')).getLast? = lst.getLast? := by
        cases hj : joinLines (l₂ :: rest') with
        | nil =>
          cases rest' with
          | nil =>
            simp only [List.getLast?_singleton, Option.some.injEq] at h'
            have : l₂ = [] := hj
            rw [this] at h'
            exact absurd h'.symm (by simpa using hne)
          | cons l₃ rest'' =>
            rw [joinLines_cons_of_ne l₂ _ (by simp)] at hj
            simp at hj
        | cons x xs =>
          have := ih h'
          rw [hj] at this
          rw [List.getLast?_cons_cons]
          exact this
      rw [hJ]
      obtain ⟨c, hc⟩ : ∃ c, lst.getLast? = some c := by
        cases hg : lst.getLast? with
        | none =>
          rw [List.getLast?_eq_none_iff] at hg
          exact absurd hg hne
        | some c => exact ⟨c, rfl⟩
      rw [hc]
      rfl

/-- Quote normalisation is the identity on texts without curly
quotes. -/
theorem normalize_id (t : Txt)
    (h : ∀ c ∈ t, c ≠ '‘' ∧ c ≠ '’' ∧ c ≠ '“' ∧ c ≠ '”') :
    ParserPy.normalizeQuotes t = t := by
  unfold ParserPy.normalizeQuotes
  have : ∀ c ∈ t, (if c = '‘' ∨ c = '’' then '\''
      else if c = '“' ∨ c = '”' then '"' else c) = c := by
    intro c hc
    rcases h c hc with ⟨h1, h2, h3, h4⟩
    rw [if_neg (by tauto), if_neg (by tauto)]
  calc t.map _ = t.map id := List.map_congr_left this
    _ = t := List.map_id t

/-- Characters of a join come from the lines or are newlines. -/
theorem mem_joinLines (ls : List Txt) (c : Char) (h : c ∈ joinLines ls) :
    c = '\n' ∨ ∃ l ∈ ls, c ∈ l := by
  induction ls with
  | nil => simp [joinLines] at h
  | cons l rest ih =>
    cases rest with
    | nil => exact Or.inr ⟨l, List.mem_cons_self _ _, h⟩
    | cons l₂ rest' =>
      rw [joinLines_cons_of_ne l _ (by simp)] at h
      rcases List.mem_append.mp h with h | h
      · exact Or.inr ⟨l, List.mem_cons_self _ _, h⟩
      · rcases List.mem_cons.mp h with h | h
        · exact Or.inl h
        · rcases ih h with h | ⟨l', hl', hc⟩
          · exact Or.inl h
          · exact Or.inr ⟨l', List.mem_cons_of_mem _ hl', hc⟩

end SplitterLemmas3

/-- Occurrences of "From:" skip characters other than its initial. -/
theorem containsSub_cons_ne (c : Char) (t : Txt) (h : c ≠ 'F') :
    containsSub (c :: t) (tx "From:") = containsSub t (tx "From:") := by
  rw [containsSub_cons]
  have hsw : startsWith (c :: t) (tx "From:") = false := by
    rw [show tx "From:" = 'F' :: tx "rom:" from rfl]
    simp [startsWith, h]
  rw [hsw]
  simp

/-- C3 (amended): on a single well-formed email — a From: address line
over the word/dot/dash classes, followed by newline-free body lines
with To: and Subject: lines among the first nine, no other
case-insensitive occurrence of "from:", no curly quotes, and a
non-whitespace final character — the validated splitter of parser.py
and the literal splitter of parser_1.py both return exactly the blob
itself.  (The counterexample shows they disagree in general.) -/
theorem C3_single_email_agree
    (lcl dom : Txt) (bodyLines : List Txt)
    (hl1 : lcl ≠ []) (hl2 : ∀ c ∈ lcl, addrC c = true)
    (hd1 : dom ≠ []) (hd2 : ∀ c ∈ dom, addrC c = true)
    (hb : bodyLines ≠ [])
    (hnl : ∀ l ∈ bodyLines, '\n' ∉ l)
    (hnf : ∀ l ∈ bodyLines, containsSubCI l (tx "from:") = false)
    (hto : ∃ l ∈ bodyLines.take 9, startsWithCI l (tx "to:") = true)
    (hsub : ∃ l ∈ bodyLines.take 9, startsWithCI l (tx "subject:") = true)
    (hlast : ∃ lst c, bodyLines.getLast? = some lst ∧ lst.getLast? = some c ∧
      isWS c = false)
    (hq : ∀ l ∈ bodyLines, ∀ c ∈ l,
      c ≠ '‘' ∧ c ≠ '’' ∧ c ≠ '“' ∧ c ≠ '”') :
    ParserPy.split_emails
        (tx "From: " ++ lcl ++ '@' :: dom ++ '\n' :: joinLines bodyLines)
      = [tx "From: " ++ lcl ++ '@' :: dom ++ '\n' :: joinLines bodyLines] ∧
    Parser1.split_emails
        (tx "From: " ++ lcl ++ '@' :: dom ++ '\n' :: joinLines bodyLines)
      = [tx "From: " ++ lcl ++ '@' :: dom ++ '\n' :: joinLines bodyLines] := by
  obtain ⟨lst, clast, hlast1, hlast2, hlast3⟩ := hlast
  have hlstne : lst ≠ [] := by
    intro he
    rw [he] at hlast2
    simp at hlast2
  -- the header line and its basic shape
  have hline0nl : '\n' ∉ tx "From: " ++ lcl ++ '@' :: dom := by
    intro hm
    rcases List.mem_append.mp hm with hm | hm
    · rcases List.mem_append.mp hm with hm | hm
      · exact absurd hm (by decide)
      · exact absurd (hl2 _ hm) (by decide)
    · rcases List.mem_cons.mp hm with hm | hm
      · exact absurd hm (by decide)
      · exact absurd (hd2 _ hm) (by decide)
  have hlines : splitLines (tx "From: " ++ lcl ++ '@' :: dom ++ '\n' :: joinLines bodyLines)
      = (tx "From: " ++ lcl ++ '@' :: dom) :: bodyLines := by
    rw [splitLines_append_nl _ _ hline0nl, splitLines_joinLines bodyLines hb hnl]
  have hhead0 : (tx "From: " ++ lcl ++ '@' :: dom).head? = some 'F' := rfl
  have hdomlast : ∃ cd, dom.getLast? = some cd ∧ addrC cd = true := by
    cases hg : dom.getLast? with
    | none =>
      rw [List.getLast?_eq_none_iff] at hg
      exact absurd hg hd1
    | some cd =>
      refine ⟨cd, rfl, hd2 cd ?_⟩
      obtain ⟨hne', heq⟩ := List.mem_getLast?_eq_getLast (l := dom) (x := cd)
        (by rw [Option.mem_def]; exact hg)
      rw [heq]
      exact List.getLast_mem hne'
  obtain ⟨cd, hcd1, hcd2⟩ := hdomlast
  have hlast0 : (tx "From: " ++ lcl ++ '@' :: dom).getLast? = some cd := by
    rw [List.getLast?_append]
    have : ('@' :: dom).getLast? = some cd := by
      cases dom with
      | nil => exact absurd rfl hd1
      | cons d0 dr =>
        rw [List.getLast?_cons_cons]
        exact hcd1
    rw [this]
    rfl
  have hstrip0 : stripTx (tx "From: " ++ lcl ++ '@' :: dom)
      = tx "From: " ++ lcl ++ '@' :: dom := by
    apply stripTx_eq_self
    · intro c hc
      rw [hhead0] at hc
      injection hc with hc
      rw [← hc]
      rfl
    · intro c hc
      rw [hlast0] at hc
      injection hc with hc
      rw [← hc]
      exact addrC_not_ws cd hcd2
  have hbd : ParserPy.boundary_match (stripTx (tx "From: " ++ lcl ++ '@' :: dom)) = true := by
    rw [hstrip0]
    exact boundary_header lcl dom hl1 hl2 hd1 hd2
  have hnobd : ∀ l ∈ bodyLines, ParserPy.boundary_match (stripTx l) = false := by
    intro l hl
    cases hbm : ParserPy.boundary_match (stripTx l)
    · rfl
    · have := boundary_containsCI l hbm
      rw [hnf l hl] at this
      simp at this
  have hjoin : joinLines ((tx "From: " ++ lcl ++ '@' :: dom) :: bodyLines)
      = tx "From: " ++ lcl ++ '@' :: dom ++ '\n' :: joinLines bodyLines :=
    joinLines_cons_of_ne _ _ hb
  have hvalid : ParserPy.validate_email_chunk
      ((tx "From: " ++ lcl ++ '@' :: dom) :: bodyLines) = true := by
    apply validate_of_found
    · refine ⟨tx "From: " ++ lcl ++ '@' :: dom, ?_, ?_⟩
      · rw [List.take_succ_cons]
        exact List.mem_cons_self _ _
      · unfold startsWithCI lowerTx
        rw [List.append_assoc, List.map_append]
        rw [show (tx "From: ").map lowerCh = tx "from:" ++ [' '] from by decide]
        rw [show (tx "from:").map lowerCh = tx "from:" from by decide]
        rw [List.append_assoc]
        exact startsWith_append_self _ _
    · obtain ⟨l, hl, hsw⟩ := hto
      refine ⟨l, ?_, hsw⟩
      rw [List.take_succ_cons]
      exact List.mem_cons_of_mem _ hl
    · obtain ⟨l, hl, hsw⟩ := hsub
      refine ⟨l, ?_, hsw⟩
      rw [List.take_succ_cons]
      exact List.mem_cons_of_mem _ hl
  constructor
  · -- parser.py side
    have hnorm : ParserPy.normalizeQuotes
        (tx "From: " ++ lcl ++ '@' :: dom ++ '\n' :: joinLines bodyLines)
        = tx "From: " ++ lcl ++ '@' :: dom ++ '\n' :: joinLines bodyLines := by
      apply normalize_id
      have hfromchars : ∀ x ∈ tx "From: ",
          x ≠ '‘' ∧ x ≠ '’' ∧ x ≠ '“' ∧ x ≠ '”' := by decide
      intro c hc
      rcases List.mem_append.mp hc with hc | hc
      · rcases List.mem_append.mp hc with hc | hc
        · rcases List.mem_append.mp hc with hc | hc
          · exact hfromchars c hc
          · exact addrC_not_curly c (hl2 c hc)
        · rcases List.mem_cons.mp hc with hc | hc
          · subst hc
            decide
          · exact addrC_not_curly c (hd2 c hc)
      · rcases List.mem_cons.mp hc with hc | hc
        · subst hc
          decide
        · rcases mem_joinLines bodyLines c hc with hc | ⟨l, hl, hcl⟩
          · subst hc
            decide
          · exact hq l hl c hcl
    simp only [ParserPy.split_emails]
    rw [hnorm, hlines]
    have hloop : ParserPy.splitLoop ((tx "From: " ++ lcl ++ '@' :: dom) :: bodyLines)
        [] [] false = ([], (tx "From: " ++ lcl ++ '@' :: dom) :: bodyLines) := by
      simp only [ParserPy.splitLoop, hbd, if_true, List.isEmpty_nil,
        Bool.not_true, Bool.false_and, Bool.false_eq_true, if_false,
        List.nil_append]
      rw [splitLoop_no_boundary bodyLines [] [tx "From: " ++ lcl ++ '@' :: dom] hnobd]
      simp
    rw [hloop]
    simp only [List.isEmpty_cons, Bool.not_false, Bool.true_and, hvalid,
      if_true, List.nil_append, hjoin]
    simp
  · -- parser_1.py side
    have hpos : subPositions
        (tx "From: " ++ lcl ++ '@' :: dom ++ '\n' :: joinLines bodyLines)
        (tx "From:") = [0] := by
      have hsw0 : startsWith
          (tx "From: " ++ lcl ++ '@' :: dom ++ '\n' :: joinLines bodyLines)
          (tx "From:") = true := by
        rw [List.append_assoc, List.append_assoc]
        rw [show tx "From: " = tx "From:" ++ [' '] from rfl, List.append_assoc]
        exact startsWith_append_self _ _
      have htail : containsSub
          (((tx "rom: " ++ lcl) ++ '@' :: dom) ++ '\n' :: joinLines bodyLines)
          (tx "From:") = false := by
        cases hcc : containsSub
            (((tx "rom: " ++ lcl) ++ '@' :: dom) ++ '\n' :: joinLines bodyLines)
            (tx "From:")
        · rfl
        · exfalso
          rcases containsSub_append_nl (tx "From:") (by decide) (by decide)
              _ _ hcc with hmid | hrest
          · have hmid' : containsSub (tx "rom: " ++ (lcl ++ '@' :: dom))
                (tx "From:") = true := by
              rw [← List.append_assoc]
              exact hmid
            rw [show tx "rom: " ++ (lcl ++ '@' :: dom)
                = 'r' :: 'o' :: 'm' :: ':' :: ' ' :: (lcl ++ '@' :: dom)
              from rfl] at hmid'
            rw [containsSub_cons_ne _ _ (by decide),
              containsSub_cons_ne _ _ (by decide),
              containsSub_cons_ne _ _ (by decide),
              containsSub_cons_ne _ _ (by decide),
              containsSub_cons_ne _ _ (by decide)] at hmid'
            have : containsSub (lcl ++ '@' :: dom) (tx "From:") = false := by
              apply no_colon_no_from
              intro c hc
              rcases List.mem_append.mp hc with hc | hc
              · exact addrC_ne_colon c (hl2 c hc)
              · rcases List.mem_cons.mp hc with hc | hc
                · subst hc
                  decide
                · exact addrC_ne_colon c (hd2 c hc)
            rw [this] at hmid'
            simp at hmid'
          · have : containsSub (joinLines bodyLines) (tx "From:") = false := by
              apply containsSub_joinLines _ (by decide) (by decide)
              intro l hl
              cases hcl : containsSub l (tx "From:")
              · rfl
              · exfalso
                have := containsSub_map_lower l (tx "From:") hcl
                rw [show lowerTx (tx "From:") = tx "from:" from by decide] at this
                have hci : containsSubCI l (tx "from:") = true := by
                  unfold containsSubCI
                  rw [show lowerTx (tx "from:") = tx "from:" from by decide]
                  exact this
                rw [hnf l hl] at hci
                simp at hci
            rw [this] at hrest
            simp at hrest
      rw [subPositions]
      rw [show tx "From: " ++ lcl ++ '@' :: dom ++ '\n' :: joinLines bodyLines
          = 'F' :: (((tx "rom: " ++ lcl) ++ '@' :: dom) ++ '\n' :: joinLines bodyLines)
        from rfl]
      rw [subPositionsFrom_cons]
      rw [show ('F' : Char) :: (((tx "rom: " ++ lcl) ++ '@' :: dom) ++ '\n' :: joinLines bodyLines)
          = tx "From: " ++ lcl ++ '@' :: dom ++ '\n' :: joinLines bodyLines
        from rfl]
      rw [hsw0]
      simp only [if_true]
      rw [subPositionsFrom_nil_of_not_contains _ _ htail 1]
    have hJlast : (joinLines bodyLines).getLast? = some clast := by
      rw [getLast_joinLines bodyLines lst hlast1 hlstne]
      exact hlast2
    have hbloblast : (tx "From: " ++ lcl ++ '@' :: dom ++ '\n' :: joinLines bodyLines).getLast?
        = some clast := by
      rw [List.getLast?_append]
      have hJne : joinLines bodyLines ≠ [] := by
        intro he
        rw [he] at hJlast
        simp at hJlast
      obtain ⟨j0, J', hJ⟩ : ∃ j0 J', joinLines bodyLines = j0 :: J' := by
        cases hj : joinLines bodyLines with
        | nil => exact absurd hj hJne
        | cons j0 J' => exact ⟨j0, J', rfl⟩
      rw [hJ]
      rw [List.getLast?_cons_cons]
      rw [hJ] at hJlast
      rw [hJlast]
      rfl
    have hstripblob : stripTx
        (tx "From: " ++ lcl ++ '@' :: dom ++ '\n' :: joinLines bodyLines)
        = tx "From: " ++ lcl ++ '@' :: dom ++ '\n' :: joinLines bodyLines := by
      apply stripTx_eq_self
      · intro c hc
        rw [show (tx "From: " ++ lcl ++ '@' :: dom ++ '\n' :: joinLines bodyLines).head?
            = some 'F' from rfl] at hc
        injection hc with hc
        rw [← hc]
        rfl
      · intro c hc
        rw [hbloblast] at hc
        injection hc with hc
        rw [← hc]
        exact hlast3
    have hbe : (tx "From: " ++ lcl ++ '@' :: dom ++ '\n' :: joinLines bodyLines).isEmpty
        = false := rfl
    simp only [Parser1.split_emails]
    rw [hpos]
    rw [show Parser1.splitAtPos
        (tx "From: " ++ lcl ++ '@' :: dom ++ '\n' :: joinLines bodyLines) [0]
        = [[], tx "From: " ++ lcl ++ '@' :: dom ++ '\n' :: joinLines bodyLines]
      from rfl]
    simp only [List.map_cons, List.map_nil, hstripblob,
      show stripTx [] = ([] : Txt) from rfl,
      List.filter_cons, List.filter_nil, hbe]
    simp

/-- Witness for C3_single_email_agree: on the concrete single well-formed
email "From: a@b.c\nTo: x@y.z\nSubject: s\nhi" both splitters return exactly
that blob as the only chunk. -/
theorem C3_single_email_agree_witness :
    ParserPy.split_emails
        (tx "From: " ++ tx "a" ++ '@' :: tx "b.c" ++ '\n' ::
          joinLines [tx "To: x@y.z", tx "Subject: s", tx "hi"])
      = [tx "From: " ++ tx "a" ++ '@' :: tx "b.c" ++ '\n' ::
          joinLines [tx "To: x@y.z", tx "Subject: s", tx "hi"]] ∧
    Parser1.split_emails
        (tx "From: " ++ tx "a" ++ '@' :: tx "b.c" ++ '\n' ::
          joinLines [tx "To: x@y.z", tx "Subject: s", tx "hi"])
      = [tx "From: " ++ tx "a" ++ '@' :: tx "b.c" ++ '\n' ::
          joinLines [tx "To: x@y.z", tx "Subject: s", tx "hi"]] :=
  C3_single_email_agree (tx "a") (tx "b.c")
    [tx "To: x@y.z", tx "Subject: s", tx "hi"]
    (by decide) (by decide) (by decide) (by decide) (by decide)
    (by decide) (by decide)
    ⟨tx "To: x@y.z", by decide, by decide⟩
    ⟨tx "Subject: s", by decide, by decide⟩
    ⟨tx "hi", 'i', by decide, by decide, by decide⟩
    (by decide)
